import Mathlib

/-!
INI file parser: a shallow embedding of `src/main.cpp`.

The class `ini_parser` reads a file line by line into
`sections_ : unordered_map<string, unordered_map<string, string>>` and
answers typed lookups `get_value<T>("section.key")`.

Modelling decisions.
* A `std::string` is a `List Char` (`Str`); the input file is the list of lines
  that `std::getline` yields, in order.
* `std::string::npos` is `none`; the source's `npos + 1` wraps to `0`
  (`nposSucc`).
* An `unordered_map` is an association list with unique keys, `count`/`at`
  being `mapCount`/`mapAt` and `m[k] = v` being `mapSet`.
* Exceptions become `Except`; the three `throw` sites of `get_value` and the
  one of the constructor's loop are the constructors of `GetError` and
  `ParseError`.
* `line_number` is a `Nat`: the source's `size_t` has 64 bits and every line of
  a file costs at least one byte, so it never wraps.
-/

namespace IniParser

/-- A `std::string`, as the list of its characters. -/
abbrev Str := List Char

/-! ## `std::string` members used by the source -/

/-- The source's `s.find(c)`: index of the first `c`, `none` for `npos`. -/
def find : Str → Char → Option Nat
  | [], _ => none
  | x :: xs, c => if x = c then some 0 else (find xs c).map (· + 1)

/-- The source's `s.find_last_not_of(set)`: index of the last character that is
not in `set`, `none` for `npos`. -/
def find_last_not_of : Str → Str → Option Nat
  | [], _ => none
  | x :: xs, set =>
    match find_last_not_of xs set with
    | some i => some (i + 1)
    | none => if x ∈ set then none else some 0

/-- The source's `s.find_first_not_of(set)`: index of the first character that
is not in `set`, `none` for `npos`. -/
def find_first_not_of : Str → Str → Option Nat
  | [], _ => none
  | x :: xs, set => if x ∈ set then (find_first_not_of xs set).map (· + 1) else some 0

/-- The value of `pos + 1` in `size_t` arithmetic: `npos + 1` wraps to `0`. -/
def nposSucc : Option Nat → Nat
  | none => 0
  | some i => i + 1

/-- The source's `s.erase(pos)`: keeps the first `pos` characters. -/
def eraseFrom (s : Str) (pos : Nat) : Str := s.take pos

/-- The source's `s.erase(0, n)`: removes the first `n` characters, all of them
when `n` is `npos`. -/
def erasePrefix (s : Str) : Option Nat → Str
  | none => []
  | some n => s.drop n

/-- The source's `s.substr(pos, len)`. -/
def substr (s : Str) (pos len : Nat) : Str := (s.drop pos).take len

/-- The source's `s.substr(pos)`. -/
def substrFrom (s : Str) (pos : Nat) : Str := s.drop pos

/-- The character set `" \t"` of the three trimming calls. -/
def blanks : Str := [' ', '\t']

/-! ## `std::unordered_map` -/

/-- An `unordered_map<string, V>`: association list with unique keys. -/
abbrev Map (V : Type) := List (Str × V)

/-- The source's `m.at(k)` (`none` where `at` would throw). -/
def mapAt {V : Type} : Map V → Str → Option V
  | [], _ => none
  | (k', v) :: m, k => if k' = k then some v else mapAt m k

/-- The source's `m.count(k)`. -/
def mapCount {V : Type} (m : Map V) (k : Str) : Nat :=
  match mapAt m k with
  | some _ => 1
  | none => 0

/-- The source's `m[k] = v`: overwrite the entry of `k`, or add one. -/
def mapSet {V : Type} : Map V → Str → V → Map V
  | [], k, v => [(k, v)]
  | (k', v') :: m, k, v => if k' = k then (k, v) :: m else (k', v') :: mapSet m k v

/-- The type of `sections_`. -/
abbrev Document := Map (Map Str)

/-- The source's `sections_[section][key] = value`: `operator[]` on the outer
map default-constructs a missing section. -/
def setEntry (d : Document) (section_ key value : Str) : Document :=
  mapSet d section_ (mapSet ((mapAt d section_).getD []) key value)

/-- The raw value stored for `key` in `section_`, if both exist. -/
def entry (d : Document) (section_ key : Str) : Option Str :=
  (mapAt d section_).bind (fun m => mapAt m key)

deriving instance DecidableEq for Except

/-! ## The constructor `ini_parser::ini_parser` -/

/-- The `std::runtime_error` of line 59, carrying `line_number`. -/
inductive ParseError where
  | syntaxError (line_number : Nat)
  deriving DecidableEq, Repr

/-- The local variables of the constructor that live across loop iterations,
with the member `sections_`. -/
structure ParseState where
  current_section : Str
  line_number : Nat
  sections_ : Document
  deriving DecidableEq, Repr

/-- One iteration of the `while (std::getline(file, line))` loop (lines 40-69). -/
def parseLine (st : ParseState) (line0 : Str) : Except ParseError ParseState :=
  let line_number := st.line_number + 1
  let line := eraseFrom line0 (nposSucc (find_last_not_of line0 blanks))
  if line.isEmpty || line.head? == some ';' then
    .ok { st with line_number := line_number }
  else if line.head? == some '[' && line.getLast? == some ']' then
    .ok { st with line_number := line_number,
                  current_section := substr line 1 (line.length - 2) }
  else
    match find line '=' with
    | none => .error (.syntaxError line_number)
    | some delimiter_pos =>
      let key := substr line 0 delimiter_pos
      let value := substrFrom line (delimiter_pos + 1)
      let key := eraseFrom key (nposSucc (find_last_not_of key blanks))
      let value := erasePrefix value (find_first_not_of value blanks)
      .ok { st with line_number := line_number,
                    sections_ := setEntry st.sections_ st.current_section key value }

/-- The `while` loop over the remaining lines. -/
def parseLoop : ParseState → List Str → Except ParseError ParseState
  | st, [] => .ok st
  | st, line :: rest =>
    match parseLine st line with
    | .error e => .error e
    | .ok st' => parseLoop st' rest

/-- The state before the first line: lines 35-36, and an empty `sections_`. -/
def initialState : ParseState :=
  { current_section := [], line_number := 0, sections_ := [] }

/-- The constructor `ini_parser::ini_parser`, run on the lines of an opened
file: the `sections_` it leaves, or the exception it throws. -/
def ini_parser_ctor (lines : List Str) : Except ParseError Document :=
  match parseLoop initialState lines with
  | .error e => .error e
  | .ok st => .ok st.sections_

/-! ## `ini_parser::get_value` -/

/-- The exceptions `get_value` can raise: `std::invalid_argument` (line 80),
`std::runtime_error` "section/key not found" (line 88),
`std::runtime_error` "bad value" (line 97), and the `std::out_of_range` of
`unordered_map::at`. -/
inductive GetError where
  | invalid_argument
  | not_found
  | bad_value
  | out_of_range
  deriving DecidableEq, Repr

/-- The method `get_value<T>`; `extract` is `iss >> result` for the type `T`,
`none` when the stream's failbit is set afterwards. -/
def get_value {T : Type} (extract : Str → Option T) (sections_ : Document)
    (section_and_key : Str) : Except GetError T :=
  match find section_and_key '.' with
  | none => .error .invalid_argument
  | some pos =>
    let section_ := substr section_and_key 0 pos
    let key := substrFrom section_and_key (pos + 1)
    if mapCount sections_ section_ = 0 then .error .not_found
    else
      match mapAt sections_ section_ with
      | none => .error .out_of_range
      | some keys =>
        if mapCount keys key = 0 then .error .not_found
        else
          match mapAt keys key with
          | none => .error .out_of_range
          | some raw =>
            match extract raw with
            | none => .error .bad_value
            | some result => .ok result

/-! ## Stream extraction `iss >> result`

The standard library's formatted input, for the two instances of `T` the
claims name. Both skip leading whitespace of the classic locale first. -/

/-- The classic locale's `isspace`: space, `\t`, `\n`, `\v`, `\f`, `\r`. -/
def isspace (c : Char) : Bool :=
  c = ' ' || c = '\t' || c = '\n' || c = Char.ofNat 11 || c = Char.ofNat 12 || c = '\r'

/-- The classic locale's `isdigit`. -/
def isdigit (c : Char) : Bool := '0' ≤ c && c ≤ '9'

/-- Extraction into a `std::string`: the characters up to the next whitespace;
the failbit is set when there are none. -/
def extractString (raw : Str) : Option Str :=
  let token := (raw.dropWhile isspace).takeWhile (fun c => !isspace c)
  if token.isEmpty then none else some token

/-- The number a run of decimal digits denotes. -/
def digitsValue (ds : Str) : Nat :=
  ds.foldl (fun acc c => 10 * acc + (c.toNat - '0'.toNat)) 0

/-- Extraction into an `int` (32 bits, base 10): an optional sign and the
longest run of digits; the failbit is set when there is no digit or when the
number does not fit the type. Characters after the digits stay in the stream. -/
def extractInt (raw : Str) : Option Int :=
  let s := raw.dropWhile isspace
  let negative := s.head? == some '-'
  let s := if s.head? == some '-' || s.head? == some '+' then s.drop 1 else s
  let ds := s.takeWhile isdigit
  if ds.isEmpty then none
  else
    let n : Int := if negative then -(digitsValue ds : Int) else (digitsValue ds : Int)
    if n < -2147483648 || 2147483647 < n then none else some n

/-! ## The specification's vocabulary

Definitions that follow the words of the specification, to be compared with
the embedding of the code above. -/

/-- Spec: a space or a tab, the "whitespace" of the parser's trimming. -/
def isBlank (c : Char) : Bool := c = ' ' || c = '\t'

/-- Spec, step 1: the line without its trailing spaces and tabs. -/
def stripTrailing (s : Str) : Str := s.rdropWhile isBlank

/-- Spec: the text without its leading spaces and tabs. -/
def stripLeading (s : Str) : Str := s.dropWhile isBlank

/-- Spec, step 3: first character `[` and last character `]`. -/
def IsHeaderForm (t : Str) : Prop := t.head? = some '[' ∧ t.getLast? = some ']'

instance (t : Str) : Decidable (IsHeaderForm t) := by
  unfold IsHeaderForm; infer_instance

/-- Spec: the text before the first `=`. -/
def beforeDelimiter (t : Str) : Str := t.takeWhile (· != '=')

/-- Spec: the text after the first `=`. -/
def afterDelimiter (t : Str) : Str := (t.dropWhile (· != '=')).drop 1

/-- Spec, steps 2 to 4: what a line is, decided on the line after its trailing
strip. -/
inductive LineKind where
  | skipped
  | header (name : Str)
  | keyValue (key value : Str)
  | malformed
  deriving DecidableEq, Repr

/-- Spec, steps 1 to 4 of the parser, as a classification of one line. -/
def classify (line : Str) : LineKind :=
  let t := stripTrailing line
  if t = [] ∨ t.head? = some ';' then .skipped
  else if IsHeaderForm t then .header (t.drop 1).dropLast
  else if '=' ∈ t then
    .keyValue (stripTrailing (beforeDelimiter t)) (stripLeading (afterDelimiter t))
  else .malformed

/-- Spec (C1): a line that, after the trailing strip, is non-empty, does not
begin with `;`, is not of header form and contains no `=`. -/
def LacksDelimiter (line : Str) : Prop :=
  stripTrailing line ≠ [] ∧ (stripTrailing line).head? ≠ some ';' ∧
    ¬ IsHeaderForm (stripTrailing line) ∧ '=' ∉ stripTrailing line

instance (line : Str) : Decidable (LacksDelimiter line) := by
  unfold LacksDelimiter; infer_instance

/-- Spec, steps 2 to 5: the effect of a line of a given kind on the state. -/
def applyKind (st : ParseState) : LineKind → Except ParseError ParseState
  | .skipped => .ok { st with line_number := st.line_number + 1 }
  | .header name =>
    .ok { st with line_number := st.line_number + 1, current_section := name }
  | .keyValue key value =>
    .ok { st with line_number := st.line_number + 1,
                  sections_ := setEntry st.sections_ st.current_section key value }
  | .malformed => .error (.syntaxError (st.line_number + 1))

/-- Spec: one key/value line's assignment, with the section that was current
when the line was read. -/
structure Assignment where
  section_ : Str
  key : Str
  value : Str
  deriving DecidableEq, Repr

/-- Spec: the assignments the key/value lines of the input make, in input
order, starting with `current` as the current section. -/
def assignments : Str → List Str → List Assignment
  | _, [] => []
  | current, line :: rest =>
    match classify line with
    | .header name => assignments name rest
    | .keyValue key value => ⟨current, key, value⟩ :: assignments current rest
    | .skipped => assignments current rest
    | .malformed => assignments current rest

/-- Spec: the value of the last assignment to `key` made while the current
section was `section_`. -/
def lastAssigned (as : List Assignment) (section_ key : Str) : Option Str :=
  ((as.filter (fun a => a.section_ = section_ ∧ a.key = key)).getLast?).map (·.value)

/-- The loop's outcome with every line number moved up by `k`: what the loop
yields when it starts `k` lines later in the file. -/
def renumber (k : Nat) : Except ParseError ParseState → Except ParseError ParseState
  | .ok st => .ok { st with line_number := st.line_number + k }
  | .error (.syntaxError n) => .error (.syntaxError (n + k))

/-- Spec (C10): the text begins with a decimal integer, an optional sign
followed by at least one digit. -/
def beginsWithInteger (v : Str) : Bool :=
  match v with
  | [] => false
  | c :: rest =>
    if c = '+' ∨ c = '-' then
      match rest with
      | [] => false
      | d :: _ => isdigit d
    else isdigit c

/-- Spec (C11, C12): the integer that an optional sign and a run of decimal
digits denote. -/
def signedValue (sign ds : Str) : Int :=
  if sign = ['-'] then -(digitsValue ds : Int) else (digitsValue ds : Int)

/-- Spec (C13): the text neither begins nor ends with a space or a tab. -/
def NoBlankEnds (v : Str) : Prop :=
  (∀ c, v.head? = some c → isBlank c = false) ∧
    (∀ c, v.getLast? = some c → isBlank c = false)

/-- Spec (C14, C20): the substring strictly between the first and the last
character. -/
def innerText (t : Str) : Str := (t.drop 1).dropLast

/-! ## The string primitives meet the specification's vocabulary -/

theorem rdropWhile_cons (p : Char → Bool) (x : Char) (xs : Str) :
    (x :: xs).rdropWhile p =
      if (xs.rdropWhile p).isEmpty then (if p x then [] else [x])
      else x :: xs.rdropWhile p := by
  simp only [List.rdropWhile, List.reverse_cons, List.dropWhile_append]
  by_cases h : (List.dropWhile p xs.reverse).isEmpty = true
  · have h' : List.dropWhile p xs.reverse = [] := by simpa using h
    by_cases hx : p x = true <;> simp [h', hx, List.dropWhile]
  · have h' : ¬ (List.dropWhile p xs.reverse).reverse.isEmpty = true := by
      simpa using h
    rw [if_neg h, if_neg h']
    simp

theorem find_last_not_of_blanks (s : Str) :
    (find_last_not_of s blanks = none → stripTrailing s = []) ∧
    (∀ i, find_last_not_of s blanks = some i →
      stripTrailing s = s.take (i + 1) ∧ stripTrailing s ≠ []) := by
  induction s with
  | nil => simp [find_last_not_of, stripTrailing, List.rdropWhile]
  | cons x xs ih =>
    obtain ⟨ih1, ih2⟩ := ih
    unfold stripTrailing at *
    rw [rdropWhile_cons]
    cases h : find_last_not_of xs blanks with
    | none =>
      have h1 := ih1 h
      by_cases hx : x ∈ blanks
      · have hb : isBlank x = true := by
          simp [blanks] at hx; simp [isBlank, hx]
        simp [find_last_not_of, h, h1, hx, hb]
      · have hb : isBlank x = false := by
          simp [blanks] at hx; simp [isBlank, hx]
        simp [find_last_not_of, h, h1, hx, hb]
    | some i =>
      obtain ⟨h1, h2⟩ := ih2 i h
      have h3 : (List.rdropWhile isBlank xs).isEmpty = false := by
        cases hh : List.rdropWhile isBlank xs with
        | nil => exact absurd hh h2
        | cons _ _ => rfl
      simp only [find_last_not_of, h, h3]
      simp [h1]

theorem eraseFrom_find_last_not_of (s : Str) :
    eraseFrom s (nposSucc (find_last_not_of s blanks)) = stripTrailing s := by
  cases h : find_last_not_of s blanks with
  | none => simp [nposSucc, eraseFrom, (find_last_not_of_blanks s).1 h]
  | some i => simp [nposSucc, eraseFrom, ((find_last_not_of_blanks s).2 i h).1]

theorem erasePrefix_find_first_not_of (s : Str) :
    erasePrefix s (find_first_not_of s blanks) = stripLeading s := by
  induction s with
  | nil => simp [find_first_not_of, erasePrefix, stripLeading]
  | cons x xs ih =>
    unfold stripLeading at *
    by_cases hx : x ∈ blanks
    · have hb : isBlank x = true := by
        simp [blanks] at hx; simp [isBlank, hx]
      cases h : find_first_not_of xs blanks with
      | none => simp [find_first_not_of, hx, h, erasePrefix, hb] at ih ⊢; exact ih
      | some i => simp [find_first_not_of, hx, h, erasePrefix, hb] at ih ⊢; exact ih
    · have hb : isBlank x = false := by
        simp [blanks] at hx; simp [isBlank, hx]
      simp [find_first_not_of, hx, erasePrefix, hb, List.dropWhile]

theorem find_eq_none (s : Str) (c : Char) : find s c = none ↔ c ∉ s := by
  induction s with
  | nil => simp [find]
  | cons x xs ih =>
    by_cases hx : x = c
    · simp [find, hx]
    · have hx' : ¬ c = x := fun h => hx h.symm
      simp [find, hx, hx', ih]

theorem find_eq_some (s : Str) (c : Char) (i : Nat) (h : find s c = some i) :
    s.take i = s.takeWhile (· != c) ∧ s.drop (i + 1) = (s.dropWhile (· != c)).drop 1 := by
  induction s generalizing i with
  | nil => simp [find] at h
  | cons x xs ih =>
    by_cases hx : x = c
    · simp [find, hx] at h
      subst h
      simp [hx, List.takeWhile, List.dropWhile]
    · simp only [find, hx, if_false, Option.map_eq_some'] at h
      obtain ⟨j, hj, rfl⟩ := h
      have := ih j hj
      have hx' : (x != c) = true := by simp [hx]
      simp [List.takeWhile, List.dropWhile, hx', this.1, this.2]

/-! ## One loop iteration, in the specification's vocabulary -/

theorem substr_header (t : Str) : substr t 1 (t.length - 2) = (t.drop 1).dropLast := by
  simp [substr, List.dropLast_eq_take, Nat.sub_sub]

theorem parseLine_eq (st : ParseState) (line : Str) :
    parseLine st line = applyKind st (classify line) := by
  unfold parseLine classify
  simp only [eraseFrom_find_last_not_of]
  generalize stripTrailing line = t
  by_cases h1 : t = [] ∨ t.head? = some ';'
  · have : (t.isEmpty || t.head? == some ';') = true := by
      rcases h1 with h | h <;> simp [h]
    simp [this, h1, applyKind]
  · have h1' : (t.isEmpty || t.head? == some ';') = false := by
      cases t with
      | nil => simp at h1
      | cons a as =>
        simp at h1 ⊢
        exact h1
    rw [if_neg h1]
    simp only [h1', Bool.false_eq_true, if_false]
    by_cases h2 : IsHeaderForm t
    · have : (t.head? == some '[' && t.getLast? == some ']') = true := by
        simp [IsHeaderForm] at h2; simp [h2]
      simp [this, h2, applyKind, substr_header]
    · have h2' : (t.head? == some '[' && t.getLast? == some ']') = false := by
        simp only [IsHeaderForm] at h2
        by_contra hc
        simp at hc
        exact h2 (by simpa using hc)
      rw [if_neg h2]
      simp only [h2', Bool.false_eq_true, if_false]
      cases hf : find t '=' with
      | none =>
        have := (find_eq_none t '=').1 hf
        simp [this, applyKind]
      | some i =>
        have hmem : '=' ∈ t := by
          by_contra hc
          rw [(find_eq_none t '=').2 hc] at hf
          exact absurd hf (by simp)
        obtain ⟨e1, e2⟩ := find_eq_some t '=' i hf
        simp only [hmem, if_true, applyKind, substr, substrFrom, List.drop_zero,
          eraseFrom_find_last_not_of, erasePrefix_find_first_not_of, e1, e2,
          beforeDelimiter, afterDelimiter]

theorem classify_malformed_iff (line : Str) :
    classify line = .malformed ↔ LacksDelimiter line := by
  unfold classify LacksDelimiter
  generalize stripTrailing line = t
  by_cases h1 : t = [] ∨ t.head? = some ';'
  · simp only [h1, if_true]
    constructor
    · intro h; cases h
    · rintro ⟨a, b, -, -⟩
      rcases h1 with h | h
      · exact absurd h a
      · exact absurd h b
  · rw [if_neg h1]
    by_cases h2 : IsHeaderForm t
    · simp [h2]
    · rw [if_neg h2]
      by_cases h3 : '=' ∈ t
      · simp [h3]
      · rw [if_neg h3]
        simp only [true_iff]
        exact ⟨fun h => h1 (Or.inl h), fun h => h1 (Or.inr h), h2, h3⟩

theorem parseLine_error_iff (st : ParseState) (line : Str) (e : ParseError) :
    parseLine st line = .error e ↔
      LacksDelimiter line ∧ e = .syntaxError (st.line_number + 1) := by
  rw [parseLine_eq, ← classify_malformed_iff]
  cases classify line <;> simp [applyKind, eq_comm]

theorem parseLine_ok_line_number (st st' : ParseState) (line : Str)
    (h : parseLine st line = .ok st') : st'.line_number = st.line_number + 1 := by
  rw [parseLine_eq] at h
  cases hk : classify line <;> rw [hk] at h <;> simp [applyKind] at h <;> subst h <;> rfl

theorem parseLine_ok_or_error (st : ParseState) (line : Str) :
    (LacksDelimiter line ∧ parseLine st line = .error (.syntaxError (st.line_number + 1))) ∨
    (¬ LacksDelimiter line ∧ ∃ st', parseLine st line = .ok st') := by
  by_cases h : LacksDelimiter line
  · exact Or.inl ⟨h, (parseLine_error_iff st line _).2 ⟨h, rfl⟩⟩
  · refine Or.inr ⟨h, ?_⟩
    cases hp : parseLine st line with
    | error e => exact absurd ((parseLine_error_iff st line e).1 hp).1 h
    | ok st' => exact ⟨st', rfl⟩

theorem parseLoop_error_iff (ls : List Str) (st : ParseState) (n : Nat) :
    parseLoop st ls = .error (.syntaxError n) ↔
      ∃ pre l post, ls = pre ++ l :: post ∧ (∀ x ∈ pre, ¬ LacksDelimiter x) ∧
        LacksDelimiter l ∧ n = st.line_number + pre.length + 1 := by
  induction ls generalizing st with
  | nil => simp [parseLoop]
  | cons a as ih =>
    rcases parseLine_ok_or_error st a with ⟨hbad, he⟩ | ⟨hgood, st', hok⟩
    · simp only [parseLoop, he]
      constructor
      · intro h
        injection h with h
        injection h with h
        exact ⟨[], a, as, rfl, by simp, hbad, by simp [h]⟩
      · rintro ⟨pre, l, post, hls, hpre, -, hn⟩
        cases pre with
        | nil => simp at hn; simp [hn]
        | cons b pre' =>
          simp at hls
          exact absurd hbad (hls.1 ▸ hpre b (by simp))
    · simp only [parseLoop, hok]
      rw [ih st', parseLine_ok_line_number st st' a hok]
      constructor
      · rintro ⟨pre, l, post, hls, hpre, hl, hn⟩
        refine ⟨a :: pre, l, post, by simp [hls], ?_, hl, by simp [hn]; omega⟩
        intro x hx
        rcases List.mem_cons.1 hx with rfl | hx
        · exact hgood
        · exact hpre x hx
      · rintro ⟨pre, l, post, hls, hpre, hl, hn⟩
        cases pre with
        | nil =>
          simp at hls
          exact absurd (hls.1 ▸ hl) hgood
        | cons b pre' =>
          simp at hls
          refine ⟨pre', l, post, hls.2, fun x hx => hpre x (by simp [hx]), hl, ?_⟩
          simp at hn; omega

theorem parseLoop_fails_iff (ls : List Str) (st : ParseState) :
    (∃ e, parseLoop st ls = .error e) ↔ ∃ l ∈ ls, LacksDelimiter l := by
  induction ls generalizing st with
  | nil => simp [parseLoop]
  | cons a as ih =>
    rcases parseLine_ok_or_error st a with ⟨hbad, he⟩ | ⟨hgood, st', hok⟩
    · simp only [parseLoop, he]
      exact ⟨fun _ => ⟨a, by simp, hbad⟩, fun _ => ⟨_, rfl⟩⟩
    · simp only [parseLoop, hok]
      rw [ih st']
      constructor
      · rintro ⟨l, hl, hb⟩
        exact ⟨l, by simp [hl], hb⟩
      · rintro ⟨l, hl, hb⟩
        rcases List.mem_cons.1 hl with rfl | hl
        · exact absurd hb hgood
        · exact ⟨l, hl, hb⟩

theorem ini_parser_error_iff (ls : List Str) (e : ParseError) :
    ini_parser_ctor ls = .error e ↔ parseLoop initialState ls = .error e := by
  unfold ini_parser_ctor
  cases parseLoop initialState ls <;> simp

theorem ini_parser_ok_iff (ls : List Str) (d : Document) :
    ini_parser_ctor ls = .ok d ↔ ∃ st, parseLoop initialState ls = .ok st ∧ st.sections_ = d := by
  unfold ini_parser_ctor
  cases parseLoop initialState ls <;> simp

theorem stripTrailing_append (s : Str) :
    ∃ ws, s = stripTrailing s ++ ws ∧ ∀ c ∈ ws, isBlank c = true := by
  unfold stripTrailing
  refine ⟨(s.reverse.takeWhile isBlank).reverse, ?_, ?_⟩
  · unfold List.rdropWhile
    rw [← List.reverse_append, List.takeWhile_append_dropWhile, List.reverse_reverse]
  · intro c hc
    rw [List.mem_reverse] at hc
    exact List.mem_takeWhile_imp hc

theorem stripTrailing_mem_of_not_blank (s : Str) (c : Char) (hc : isBlank c = false)
    (h : c ∈ s) : c ∈ stripTrailing s := by
  obtain ⟨ws, hs, hws⟩ := stripTrailing_append s
  rw [hs] at h
  rcases List.mem_append.1 h with h | h
  · exact h
  · rw [hws c h] at hc
    cases hc

theorem takeWhile_append_of_mem (p : Char → Bool) (a b : Str)
    (h : ∃ c ∈ a, p c = false) : (a ++ b).takeWhile p = a.takeWhile p := by
  induction a with
  | nil => simp at h
  | cons x xs ih =>
    by_cases hx : p x = true
    · obtain ⟨c, hc, hpc⟩ := h
      rcases List.mem_cons.1 hc with rfl | hc
      · rw [hx] at hpc; cases hpc
      · simp [List.takeWhile, hx, ih ⟨c, hc, hpc⟩]
    · simp [List.takeWhile, hx]

theorem beforeDelimiter_stripTrailing (s : Str) (h : '=' ∈ s) :
    beforeDelimiter (stripTrailing s) = beforeDelimiter s := by
  have hm := stripTrailing_mem_of_not_blank s '=' (by decide) h
  obtain ⟨ws, hs, -⟩ := stripTrailing_append s
  unfold beforeDelimiter
  conv_rhs => rw [hs]
  rw [takeWhile_append_of_mem]
  exact ⟨'=', hm, by decide⟩

theorem mapAt_mapSet {V : Type} (m : Map V) (k k' : Str) (v : V) :
    mapAt (mapSet m k v) k' = if k' = k then some v else mapAt m k' := by
  induction m with
  | nil =>
    by_cases h : k' = k
    · simp [mapSet, mapAt, h]
    · have h' : ¬ k = k' := fun e => h e.symm
      simp [mapSet, mapAt, h, h']
  | cons p m ih =>
    obtain ⟨a, b⟩ := p
    by_cases h1 : a = k
    · by_cases h : k' = k
      · simp [mapSet, mapAt, h1, h]
      · have h' : ¬ k = k' := fun e => h e.symm
        simp [mapSet, mapAt, h1, h, h']
    · by_cases h : k' = k
      · subst h
        simp [mapSet, mapAt, h1, ih]
      · by_cases h2 : a = k'
        · simp [mapSet, mapAt, h1, h, h2]
        · simp [mapSet, mapAt, h1, h, h2, ih]

theorem entry_setEntry (d : Document) (s k v s' k' : Str) :
    entry (setEntry d s k v) s' k' =
      if s' = s ∧ k' = k then some v else entry d s' k' := by
  unfold entry setEntry
  rw [mapAt_mapSet]
  by_cases hs : s' = s
  · subst hs
    simp only [if_true, Option.some_bind, true_and, mapAt_mapSet]
    by_cases hk : k' = k
    · simp [hk]
    · simp only [hk, if_false]
      cases mapAt d s' <;> simp [mapAt]
  · simp [hs]

theorem mapAt_setEntry_isSome (d : Document) (s k v s' : Str) :
    (mapAt (setEntry d s k v) s').isSome = true ↔ s' = s ∨ (mapAt d s').isSome = true := by
  unfold setEntry
  rw [mapAt_mapSet]
  by_cases hs : s' = s <;> simp [hs]

theorem find_append_cons (s k : Str) (c : Char) (h : c ∉ s) :
    find (s ++ c :: k) c = some s.length := by
  induction s with
  | nil => simp [find]
  | cons x xs ih =>
    have hx : ¬ x = c := fun e => h (by simp [e])
    have hxs : c ∉ xs := fun e => h (by simp [e])
    simp [find, hx, ih hxs]

theorem get_value_eq {T : Type} (extract : Str → Option T) (d : Document) (path : Str) :
    get_value extract d path =
      match find path '.' with
      | none => .error .invalid_argument
      | some pos =>
        match entry d (path.take pos) (path.drop (pos + 1)) with
        | none => .error .not_found
        | some raw =>
          match extract raw with
          | none => .error .bad_value
          | some result => .ok result := by
  unfold get_value entry mapCount
  cases find path '.' with
  | none => rfl
  | some pos =>
    simp only [substr, substrFrom, List.drop_zero]
    cases h1 : mapAt d (List.take pos path) with
    | none => simp
    | some keys =>
      cases h2 : mapAt keys (List.drop (pos + 1) path) with
      | none => simp [h2]
      | some raw => simp [h2]

theorem get_value_section_key {T : Type} (extract : Str → Option T) (d : Document)
    (s k : Str) (hs : '.' ∉ s) :
    get_value extract d (s ++ '.' :: k) =
      match entry d s k with
      | none => .error .not_found
      | some raw =>
        match extract raw with
        | none => .error .bad_value
        | some result => .ok result := by
  rw [get_value_eq, find_append_cons s k '.' hs]
  simp

theorem extractString_token (v : Str) (hv : v ≠ []) (hw : ∀ c ∈ v, isspace c = false) :
    extractString v = some v := by
  unfold extractString
  have h1 : v.dropWhile isspace = v := by
    cases v with
    | nil => rfl
    | cons x xs => simp [List.dropWhile, hw x (by simp)]
  have h2 : v.takeWhile (fun c => !isspace c) = v := by
    rw [List.takeWhile_eq_self_iff]
    intro c hc
    simp [hw c hc]
  simp only [h1, h2]
  cases v with
  | nil => exact absurd rfl hv
  | cons x xs => rfl

theorem lastAssigned_cons (a : Assignment) (as : List Assignment) (s k : Str) :
    lastAssigned (a :: as) s k =
      match lastAssigned as s k with
      | some v => some v
      | none => if a.section_ = s ∧ a.key = k then some a.value else none := by
  unfold lastAssigned
  by_cases h : a.section_ = s ∧ a.key = k
  · have e : List.filter (fun a => decide (a.section_ = s ∧ a.key = k)) (a :: as) =
        a :: List.filter (fun a => decide (a.section_ = s ∧ a.key = k)) as := by
      simp [List.filter_cons, h]
    rw [e]
    cases hf : List.filter (fun a => decide (a.section_ = s ∧ a.key = k)) as with
    | nil => simp [h]
    | cons b bs =>
      rw [List.getLast?_cons_cons]
      have hb : (b :: bs).getLast? = some ((b :: bs).getLast (by simp)) :=
        List.getLast?_eq_getLast _ _
      rw [hb]
      rfl
  · have e : List.filter (fun a => decide (a.section_ = s ∧ a.key = k)) (a :: as) =
        List.filter (fun a => decide (a.section_ = s ∧ a.key = k)) as := by
      simp [List.filter_cons, h]
    rw [e]
    cases hf : (List.filter (fun a => decide (a.section_ = s ∧ a.key = k)) as).getLast? with
    | none => simp [h]
    | some b => simp

theorem parseLoop_entry (ls : List Str) (st st' : ParseState) (s k : Str)
    (h : parseLoop st ls = .ok st') :
    entry st'.sections_ s k =
      match lastAssigned (assignments st.current_section ls) s k with
      | some v => some v
      | none => entry st.sections_ s k := by
  induction ls generalizing st with
  | nil =>
    simp only [parseLoop, Except.ok.injEq] at h
    subst h
    simp [assignments, lastAssigned]
  | cons a as ih =>
    simp only [parseLoop, parseLine_eq] at h
    cases hk : classify a with
    | skipped =>
      simp only [hk, applyKind] at h
      simpa [assignments, hk] using ih _ h
    | header name =>
      simp only [hk, applyKind] at h
      simpa [assignments, hk] using ih _ h
    | keyValue key value =>
      simp only [hk, applyKind] at h
      have := ih _ h
      simp only [entry_setEntry] at this
      rw [this]
      simp only [assignments, hk, lastAssigned_cons]
      cases lastAssigned (assignments st.current_section as) s k with
      | some v => rfl
      | none =>
        by_cases hc : s = st.current_section ∧ k = key
        · obtain ⟨rfl, rfl⟩ := hc
          simp
        · have hc' : ¬ (st.current_section = s ∧ key = k) := fun e => hc ⟨e.1.symm, e.2.symm⟩
          simp [hc, hc']
    | malformed =>
      simp [hk, applyKind] at h

theorem entry_eq_none_iff (d : Document) (s k : Str) :
    entry d s k = none ↔
      mapAt d s = none ∨ ∃ keys, mapAt d s = some keys ∧ mapAt keys k = none := by
  unfold entry
  cases mapAt d s <;> simp

theorem find_isSome_of_mem (s : Str) (c : Char) (h : c ∈ s) : ∃ i, find s c = some i := by
  cases hf : find s c with
  | none => exact absurd h ((find_eq_none s c).1 hf)
  | some i => exact ⟨i, rfl⟩

theorem get_value_of_mem {T : Type} (extract : Str → Option T) (d : Document) (path : Str)
    (h : '.' ∈ path) :
    get_value extract d path =
      match entry d (path.takeWhile (· != '.')) ((path.dropWhile (· != '.')).drop 1) with
      | none => .error .not_found
      | some raw =>
        match extract raw with
        | none => .error .bad_value
        | some result => .ok result := by
  obtain ⟨i, hi⟩ := find_isSome_of_mem path '.' h
  obtain ⟨e1, e2⟩ := find_eq_some path '.' i hi
  rw [get_value_eq, hi]
  simp only [e1, e2]

theorem parseLine_renumber (st : ParseState) (line : Str) (k : Nat) :
    parseLine { st with line_number := st.line_number + k } line =
      renumber k (parseLine st line) := by
  simp only [parseLine_eq]
  cases classify line <;> simp [applyKind, renumber, Nat.add_right_comm]

theorem parseLoop_renumber (ls : List Str) (st : ParseState) (k : Nat) :
    parseLoop { st with line_number := st.line_number + k } ls =
      renumber k (parseLoop st ls) := by
  induction ls generalizing st with
  | nil => simp [parseLoop, renumber]
  | cons a as ih =>
    simp only [parseLoop, parseLine_renumber]
    cases h : parseLine st a with
    | error e =>
      cases e
      simp [renumber]
    | ok st' =>
      simp only [renumber]
      exact ih st'

theorem parseLoop_append (ls1 ls2 : List Str) (st : ParseState) :
    parseLoop st (ls1 ++ ls2) =
      match parseLoop st ls1 with
      | .error e => .error e
      | .ok st' => parseLoop st' ls2 := by
  induction ls1 generalizing st with
  | nil => simp [parseLoop]
  | cons a as ih =>
    simp only [List.cons_append, parseLoop]
    cases parseLine st a with
    | error e => rfl
    | ok st' => exact ih st'

theorem renumber_ok_sections (k : Nat) (r : Except ParseError ParseState) (d : Document) :
    (∃ st, renumber k r = .ok st ∧ st.sections_ = d) ↔
      ∃ st, r = .ok st ∧ st.sections_ = d := by
  cases r with
  | error e =>
    cases e
    simp [renumber]
  | ok st' => simp [renumber]

theorem stripTrailing_head_of_not_blank (x : Char) (xs : Str) (hx : isBlank x = false) :
    (stripTrailing (x :: xs)).head? = some x := by
  unfold stripTrailing
  rw [rdropWhile_cons]
  by_cases h : (List.rdropWhile isBlank xs).isEmpty = true
  · simp [h, hx]
  · simp [h]

theorem classify_skipped (c : Str) (hc : c = [] ∨ c.head? = some ';') :
    classify c = .skipped := by
  have : stripTrailing c = [] ∨ (stripTrailing c).head? = some ';' := by
    rcases hc with rfl | h
    · exact Or.inl rfl
    · cases c with
      | nil => simp at h
      | cons x xs =>
        simp only [List.head?_cons, Option.some.injEq] at h
        subst h
        exact Or.inr (stripTrailing_head_of_not_blank ';' xs (by decide))
  unfold classify
  simp only [this, if_true]

theorem dropWhile_isspace_of_none (v : Str) (hw : ∀ c ∈ v, isspace c = false) :
    v.dropWhile isspace = v := by
  cases v with
  | nil => rfl
  | cons x xs => simp [List.dropWhile, hw x (by simp)]

theorem extractInt_no_integer (v : Str) (hw : ∀ c ∈ v, isspace c = false)
    (hi : beginsWithInteger v = false) : extractInt v = none := by
  unfold extractInt
  simp only [dropWhile_isspace_of_none v hw]
  cases v with
  | nil => rfl
  | cons x xs =>
    by_cases hx : x = '+' ∨ x = '-'
    · have hsign : ((x :: xs).head? == some '-' || (x :: xs).head? == some '+') = true := by
        rcases hx with rfl | rfl <;> simp
      simp only [hsign, if_true, List.drop_one, List.tail_cons]
      cases xs with
      | nil => rfl
      | cons y ys =>
        simp only [beginsWithInteger, hx, if_true] at hi
        have ht : List.takeWhile isdigit (y :: ys) = [] := by simp [List.takeWhile, hi]
        simp only [ht, List.isEmpty_nil, if_true]
    · have hsign : ((x :: xs).head? == some '-' || (x :: xs).head? == some '+') = false := by
        simp only [not_or] at hx
        simp [hx.1, hx.2]
      simp only [beginsWithInteger, hx, if_false] at hi
      have ht : List.takeWhile isdigit (x :: xs) = [] := by simp [List.takeWhile, hi]
      simp only [hsign, Bool.false_eq_true, if_false, ht, List.isEmpty_nil, if_true]

theorem isdigit_not_isspace (c : Char) (h : isdigit c = true) : isspace c = false := by
  by_contra hc
  simp only [Bool.not_eq_false] at hc
  simp only [isspace, Bool.or_eq_true, decide_eq_true_eq] at hc
  rcases hc with ((((rfl | rfl) | rfl) | rfl) | rfl) | rfl <;> revert h <;> decide

theorem isdigit_not_sign (c : Char) (h : isdigit c = true) : c ≠ '-' ∧ c ≠ '+' := by
  constructor <;> rintro rfl <;> revert h <;> decide

theorem takeWhile_run (p : Char → Bool) (ds rest : Str) (hds : ∀ c ∈ ds, p c = true)
    (hrest : rest.head?.all (fun c => !p c) = true) :
    (ds ++ rest).takeWhile p = ds := by
  induction ds with
  | nil =>
    cases rest with
    | nil => rfl
    | cons c r =>
      simp only [List.head?_cons, Option.all_some, Bool.not_eq_true'] at hrest
      simp [List.takeWhile, hrest]
  | cons x xs ih =>
    have hx : p x = true := hds x (by simp)
    simp [List.takeWhile, hx, ih (fun c hc => hds c (by simp [hc]))]

theorem extractInt_sign_digits (sign ds rest : Str)
    (hsign : sign = [] ∨ sign = ['+'] ∨ sign = ['-'])
    (hne : ds ≠ []) (hds : ∀ c ∈ ds, isdigit c = true)
    (hrest : rest.head?.all (fun c => !isdigit c) = true) :
    extractInt (sign ++ ds ++ rest) =
      if signedValue sign ds < -2147483648 ∨ 2147483647 < signedValue sign ds then none
      else some (signedValue sign ds) := by
  obtain ⟨x, xs, rfl⟩ : ∃ x xs, ds = x :: xs := by
    cases ds with
    | nil => exact absurd rfl hne
    | cons x xs => exact ⟨x, xs, rfl⟩
  have hx : isdigit x = true := hds x (by simp)
  have htake : (x :: (xs ++ rest)).takeWhile isdigit = x :: xs :=
    takeWhile_run isdigit (x :: xs) rest hds hrest
  have hxs : isspace x = false := isdigit_not_isspace x hx
  obtain ⟨hx1, hx2⟩ := isdigit_not_sign x hx
  unfold extractInt signedValue
  rcases hsign with rfl | rfl | rfl
  · have hd : ((x :: xs) ++ rest).dropWhile isspace = (x :: xs) ++ rest := by
      simp [List.dropWhile, hxs]
    simp only [List.nil_append, hd]
    simp [hx1, hx2, htake]
  · have hd : (['+'] ++ (x :: xs) ++ rest).dropWhile isspace = '+' :: ((x :: xs) ++ rest) := by
      simp [List.dropWhile, isspace]
    simp only [hd, List.head?_cons, List.drop_one, List.tail_cons]
    simp [htake]
  · have hd : (['-'] ++ (x :: xs) ++ rest).dropWhile isspace = '-' :: ((x :: xs) ++ rest) := by
      simp [List.dropWhile, isspace]
    simp only [hd, List.head?_cons, List.drop_one, List.tail_cons]
    simp [htake]

theorem stripTrailing_getLast (s : Str) (c : Char)
    (h : (stripTrailing s).getLast? = some c) : isBlank c = false := by
  unfold stripTrailing at h
  by_cases hl : List.rdropWhile isBlank s = []
  · rw [hl] at h
    cases h
  · rw [List.getLast?_eq_getLast _ hl] at h
    injection h with h
    have := List.rdropWhile_last_not (p := isBlank) (l := s) hl
    rw [h] at this
    simpa using this

theorem getLast_of_suffix (x y : Str) (hxy : x <:+ y)
    (hy : ∀ c, y.getLast? = some c → isBlank c = false) (c : Char)
    (h : x.getLast? = some c) : isBlank c = false := by
  by_cases hx : x = []
  · rw [hx] at h
    cases h
  · rw [List.getLast?_eq_getLast _ hx] at h
    injection h with h
    apply hy
    rw [List.getLast?_eq_getLast _ (hxy.ne_nil hx), ← hxy.getLast hx, h]

theorem stripLeading_head (s : Str) (c : Char) (h : (stripLeading s).head? = some c) :
    isBlank c = false := by
  have := List.head?_dropWhile_not isBlank s
  unfold stripLeading at h
  rw [h] at this
  exact this

theorem classify_keyValue (line k v : Str) (h : classify line = .keyValue k v) :
    k = stripTrailing (beforeDelimiter (stripTrailing line)) ∧
    v = stripLeading (afterDelimiter (stripTrailing line)) ∧
    stripTrailing line ≠ [] ∧ (stripTrailing line).head? ≠ some ';' ∧
    ¬ IsHeaderForm (stripTrailing line) ∧ '=' ∈ stripTrailing line := by
  unfold classify at h
  by_cases h1 : stripTrailing line = [] ∨ (stripTrailing line).head? = some ';'
  · simp [h1] at h
  · by_cases h2 : IsHeaderForm (stripTrailing line)
    · simp [h1, h2] at h
    · by_cases h3 : '=' ∈ stripTrailing line
      · simp only [h1, h2, h3, if_true, if_false, LineKind.keyValue.injEq] at h
        exact ⟨h.1.symm, h.2.symm, fun e => h1 (Or.inl e), fun e => h1 (Or.inr e), h2, h3⟩
      · simp [h1, h2, h3] at h

theorem classify_header_iff (line n : Str) :
    classify line = .header n ↔
      IsHeaderForm (stripTrailing line) ∧ n = innerText (stripTrailing line) := by
  unfold classify innerText
  by_cases h1 : stripTrailing line = [] ∨ (stripTrailing line).head? = some ';'
  · have h2 : ¬ IsHeaderForm (stripTrailing line) := by
      rintro ⟨a, -⟩
      rcases h1 with h | h
      · rw [h] at a
        cases a
      · rw [h] at a
        exact absurd a (by decide)
    simp [h1, h2]
  · by_cases h2 : IsHeaderForm (stripTrailing line)
    · simp [h1, h2, eq_comm]
    · by_cases h3 : '=' ∈ stripTrailing line <;> simp [h1, h2, h3]

theorem value_noBlankEnds (line k v : Str) (h : classify line = .keyValue k v) :
    NoBlankEnds v := by
  obtain ⟨-, rfl, -⟩ := classify_keyValue line k v h
  refine ⟨stripLeading_head _, ?_⟩
  have hsuf : stripLeading (afterDelimiter (stripTrailing line)) <:+ stripTrailing line :=
    (List.dropWhile_suffix isBlank).trans
      ((List.drop_suffix 1 _).trans (List.dropWhile_suffix _))
  exact getLast_of_suffix _ _ hsuf (stripTrailing_getLast line)

theorem lastAssigned_mem (as : List Assignment) (s k v : Str)
    (h : lastAssigned as s k = some v) :
    ∃ a ∈ as, a.section_ = s ∧ a.key = k ∧ a.value = v := by
  unfold lastAssigned at h
  simp only [Option.map_eq_some'] at h
  obtain ⟨a, ha, rfl⟩ := h
  have hm := List.mem_of_getLast?_eq_some ha
  rw [List.mem_filter] at hm
  simp only [decide_eq_true_eq] at hm
  exact ⟨a, hm.1, hm.2.1, hm.2.2, rfl⟩

theorem assignments_origin (ls : List Str) (cur : Str) (a : Assignment)
    (h : a ∈ assignments cur ls) :
    ∃ mid kv post, ls = mid ++ kv :: post ∧ classify kv = .keyValue a.key a.value ∧
      ((a.section_ = cur ∧ ∀ x ∈ mid, ¬ IsHeaderForm (stripTrailing x)) ∨
        ∃ pre l mid', mid = pre ++ l :: mid' ∧ classify l = .header a.section_ ∧
          ∀ x ∈ mid', ¬ IsHeaderForm (stripTrailing x)) := by
  induction ls generalizing cur with
  | nil => simp [assignments] at h
  | cons x xs ih =>
    have hstep : ∀ cur', a ∈ assignments cur' xs →
        ((cur' = cur ∧ ¬ IsHeaderForm (stripTrailing x)) ∨ classify x = .header cur') →
        ∃ mid kv post, x :: xs = mid ++ kv :: post ∧ classify kv = .keyValue a.key a.value ∧
          ((a.section_ = cur ∧ ∀ y ∈ mid, ¬ IsHeaderForm (stripTrailing y)) ∨
            ∃ pre l mid', mid = pre ++ l :: mid' ∧ classify l = .header a.section_ ∧
              ∀ y ∈ mid', ¬ IsHeaderForm (stripTrailing y)) := by
      intro cur' ha hx
      obtain ⟨mid, kv, post, hls, hkv, hor⟩ := ih cur' ha
      refine ⟨x :: mid, kv, post, by simp [hls], hkv, ?_⟩
      rcases hor with ⟨hsec, hmid⟩ | ⟨pre, l, mid', hm, hl, hmid'⟩
      · rcases hx with ⟨rfl, hnh⟩ | hhead
        · left
          refine ⟨hsec, ?_⟩
          intro y hy
          rcases List.mem_cons.1 hy with rfl | hy
          · exact hnh
          · exact hmid y hy
        · right
          exact ⟨[], x, mid, rfl, hsec ▸ hhead, hmid⟩
      · right
        exact ⟨x :: pre, l, mid', by simp [hm], hl, hmid'⟩
    cases hk : classify x with
    | skipped =>
      simp only [assignments, hk] at h
      refine hstep cur h (Or.inl ⟨rfl, ?_⟩)
      intro hh
      have := (classify_header_iff x _).2 ⟨hh, rfl⟩
      rw [hk] at this
      cases this
    | malformed =>
      simp only [assignments, hk] at h
      refine hstep cur h (Or.inl ⟨rfl, ?_⟩)
      intro hh
      have := (classify_header_iff x _).2 ⟨hh, rfl⟩
      rw [hk] at this
      cases this
    | header name =>
      simp only [assignments, hk] at h
      exact hstep name h (Or.inr hk)
    | keyValue key value =>
      simp only [assignments, hk, List.mem_cons] at h
      rcases h with rfl | h
      · exact ⟨[], x, xs, rfl, hk, Or.inl ⟨rfl, by simp⟩⟩
      · refine hstep cur h (Or.inl ⟨rfl, ?_⟩)
        intro hh
        have := (classify_header_iff x _).2 ⟨hh, rfl⟩
        rw [hk] at this
        cases this

theorem parseLoop_sections (ls : List Str) (st st' : ParseState) (s : Str)
    (h : parseLoop st ls = .ok st') :
    (mapAt st'.sections_ s).isSome = true ↔
      (mapAt st.sections_ s).isSome = true ∨
        ∃ a ∈ assignments st.current_section ls, a.section_ = s := by
  induction ls generalizing st with
  | nil =>
    simp only [parseLoop, Except.ok.injEq] at h
    subst h
    simp [assignments]
  | cons x xs ih =>
    simp only [parseLoop, parseLine_eq] at h
    cases hk : classify x with
    | skipped =>
      simp only [hk, applyKind] at h
      simpa [assignments, hk] using ih _ h
    | header name =>
      simp only [hk, applyKind] at h
      simpa [assignments, hk] using ih _ h
    | keyValue key value =>
      simp only [hk, applyKind] at h
      have := ih _ h
      rw [this, mapAt_setEntry_isSome]
      simp only [assignments, hk, List.mem_cons, exists_eq_or_imp]
      constructor
      · rintro ((rfl | h1) | h2)
        · exact Or.inr (Or.inl rfl)
        · exact Or.inl h1
        · exact Or.inr (Or.inr h2)
      · rintro (h1 | h2 | h3)
        · exact Or.inl (Or.inr h1)
        · exact Or.inl (Or.inl h2.symm)
        · exact Or.inr h3
    | malformed =>
      simp [hk, applyKind] at h

theorem stripTrailing_of_blank (line : Str) (h : ∀ c ∈ line, isBlank c = true) :
    stripTrailing line = [] := by
  unfold stripTrailing
  rw [List.rdropWhile_eq_nil_iff]
  exact h

theorem stripTrailing_cons_of_not_blank (c : Char) (r : Str) (hc : isBlank c = false) :
    stripTrailing (c :: r) = c :: stripTrailing r := by
  unfold stripTrailing
  rw [rdropWhile_cons]
  by_cases h : (List.rdropWhile isBlank r).isEmpty = true
  · have h' : List.rdropWhile isBlank r = [] := by simpa using h
    simp [h', hc]
  · rw [if_neg h]

theorem stripTrailing_append_cons (a r : Str) (c : Char) (hc : isBlank c = false) :
    stripTrailing (a ++ c :: r) = a ++ c :: stripTrailing r := by
  induction a with
  | nil => exact stripTrailing_cons_of_not_blank c r hc
  | cons x xs ih =>
    unfold stripTrailing at ih ⊢
    rw [List.cons_append, rdropWhile_cons, ih]
    simp

theorem mem_of_mem_stripTrailing (s : Str) (c : Char) (h : c ∈ stripTrailing s) : c ∈ s := by
  obtain ⟨ws, hs, -⟩ := stripTrailing_append s
  rw [hs]
  exact List.mem_append_left _ h

theorem blank_ne_of_not_blank (x c : Char) (hx : isBlank x = true) (hc : isBlank c = false) :
    x ≠ c := by
  rintro rfl
  rw [hx] at hc
  cases hc

theorem beforeDelimiter_append_cons (a r : Str) (c : Char) (ha : '=' ∉ a) (hc : c ≠ '=') :
    beforeDelimiter (a ++ c :: r) = a ++ c :: beforeDelimiter r := by
  unfold beforeDelimiter
  induction a with
  | nil =>
    have hc' : (c != '=') = true := by simp [hc]
    simp [List.takeWhile, hc']
  | cons x xs ih =>
    have hx : x ≠ '=' := fun e => ha (by simp [e])
    have hx' : (x != '=') = true := by simp [hx]
    have hxs : '=' ∉ xs := fun e => ha (by simp [e])
    simp [List.takeWhile, hx', ih hxs]

theorem classify_blank_then_semicolon (ws rest : Str) (hne : ws ≠ [])
    (hws : ∀ c ∈ ws, isBlank c = true) :
    classify (ws ++ ';' :: rest) =
      if '=' ∈ rest then
        .keyValue (ws ++ ';' :: stripTrailing (beforeDelimiter (stripTrailing rest)))
          (stripLeading (afterDelimiter (ws ++ ';' :: stripTrailing rest)))
      else .malformed := by
  have ht : stripTrailing (ws ++ ';' :: rest) = ws ++ ';' :: stripTrailing rest :=
    stripTrailing_append_cons ws rest ';' (by decide)
  obtain ⟨x, xs, rfl⟩ : ∃ x xs, ws = x :: xs := by
    cases ws with
    | nil => exact absurd rfl hne
    | cons x xs => exact ⟨x, xs, rfl⟩
  have hx : isBlank x = true := hws x (by simp)
  have h1 : ¬ (stripTrailing (x :: xs ++ ';' :: rest) = [] ∨
      (stripTrailing (x :: xs ++ ';' :: rest)).head? = some ';') := by
    rw [ht]
    rintro (h | h)
    · simp at h
    · simp only [List.cons_append, List.head?_cons, Option.some.injEq] at h
      exact blank_ne_of_not_blank x ';' hx (by decide) h
  have h2 : ¬ IsHeaderForm (stripTrailing (x :: xs ++ ';' :: rest)) := by
    rw [ht]
    rintro ⟨h, -⟩
    simp only [List.cons_append, List.head?_cons, Option.some.injEq] at h
    exact blank_ne_of_not_blank x '[' hx (by decide) h
  have hnot : '=' ∉ x :: xs := by
    intro hm
    have := hws '=' hm
    revert this
    decide
  have h3 : '=' ∈ stripTrailing (x :: xs ++ ';' :: rest) ↔ '=' ∈ rest := by
    constructor
    · intro hm
      have hm' := mem_of_mem_stripTrailing _ _ hm
      rcases List.mem_append.1 hm' with hm' | hm'
      · exact absurd hm' hnot
      · rcases List.mem_cons.1 hm' with hm' | hm'
        · exact absurd hm' (by decide)
        · exact hm'
    · intro hm
      exact stripTrailing_mem_of_not_blank _ '=' (by decide)
        (List.mem_append_right _ (List.mem_cons_of_mem _ hm))
  unfold classify
  simp only [h1, h2, h3, if_false]
  by_cases hm : '=' ∈ rest
  · simp only [hm, if_true, ht]
    rw [beforeDelimiter_append_cons (x :: xs) (stripTrailing rest) ';' hnot (by decide),
      stripTrailing_append_cons (x :: xs) _ ';' (by decide)]
  · simp only [hm, if_false]

theorem find_split (s : Str) (c : Char) (i : Nat) (h : find s c = some i) :
    s = s.take i ++ c :: s.drop (i + 1) ∧ c ∉ s.take i := by
  induction s generalizing i with
  | nil => simp [find] at h
  | cons x xs ih =>
    by_cases hx : x = c
    · simp [find, hx] at h
      subst h
      simp [hx]
    · simp only [find, hx, if_false, Option.map_eq_some'] at h
      obtain ⟨j, hj, rfl⟩ := h
      obtain ⟨h1, h2⟩ := ih j hj
      have hx' : ¬ c = x := fun e => hx e.symm
      refine ⟨?_, ?_⟩
      · simp only [List.take_succ_cons, List.drop_succ_cons, List.cons_append]
        rw [← h1]
      · simp [hx', h2]

theorem get_value_ok_section {T : Type} (extract : Str → Option T) (d : Document)
    (path : Str) (r : T) (h : get_value extract d path = .ok r) :
    ∃ s k raw, path = s ++ '.' :: k ∧ '.' ∉ s ∧ entry d s k = some raw ∧
      extract raw = some r := by
  rw [get_value_eq] at h
  cases hf : find path '.' with
  | none =>
    simp only [hf] at h
    cases h
  | some pos =>
    simp only [hf] at h
    obtain ⟨h1, h2⟩ := find_split path '.' pos hf
    cases he : entry d (path.take pos) (path.drop (pos + 1)) with
    | none =>
      simp only [he] at h
      cases h
    | some raw =>
      simp only [he] at h
      cases hx : extract raw with
      | none =>
        simp only [hx] at h
        cases h
      | some r' =>
        simp only [hx, Except.ok.injEq] at h
        subst h
        exact ⟨_, _, raw, h1, h2, he, hx⟩

theorem extractString_spec (v : Str) :
    (extractString v = none ↔ ∀ c ∈ v, isspace c = true) ∧
    ((∃ c ∈ v, isspace c = false) →
      ∃ ws tok rest, v = ws ++ tok ++ rest ∧ (∀ c ∈ ws, isspace c = true) ∧ tok ≠ [] ∧
        (∀ c ∈ tok, isspace c = false) ∧ rest.head?.all isspace = true ∧
        extractString v = some tok) := by
  have hsplit : v = v.takeWhile isspace ++
      (v.dropWhile isspace).takeWhile (fun c => !isspace c) ++
      (v.dropWhile isspace).dropWhile (fun c => !isspace c) := by
    rw [List.append_assoc, List.takeWhile_append_dropWhile, List.takeWhile_append_dropWhile]
  have hws : ∀ c ∈ v.takeWhile isspace, isspace c = true :=
    fun c hc => List.mem_takeWhile_imp hc
  have htok : ∀ c ∈ (v.dropWhile isspace).takeWhile (fun c => !isspace c),
      isspace c = false := by
    intro c hc
    have := List.mem_takeWhile_imp hc
    simpa using this
  have hrest : ((v.dropWhile isspace).dropWhile (fun c => !isspace c)).head?.all isspace
      = true := by
    have := List.head?_dropWhile_not (fun c => !isspace c) (v.dropWhile isspace)
    cases hh : ((v.dropWhile isspace).dropWhile (fun c => !isspace c)).head? with
    | none => rfl
    | some x =>
      rw [hh] at this
      simpa using this
  have hempty : (v.dropWhile isspace).takeWhile (fun c => !isspace c) = [] ↔
      ∀ c ∈ v, isspace c = true := by
    constructor
    · intro he c hc
      by_contra hcn
      have hd : v.dropWhile isspace ≠ [] := by
        intro hnil
        rw [List.dropWhile_eq_nil_iff] at hnil
        exact hcn (hnil c hc)
      obtain ⟨x, xs, hx⟩ : ∃ x xs, v.dropWhile isspace = x :: xs := by
        cases hv : v.dropWhile isspace with
        | nil => exact absurd hv hd
        | cons x xs => exact ⟨x, xs, rfl⟩
      have hnot := List.head?_dropWhile_not isspace v
      rw [hx] at hnot he
      simp only [List.head?_cons] at hnot
      simp [List.takeWhile, hnot] at he
    · intro hall
      have : v.dropWhile isspace = [] := by
        rw [List.dropWhile_eq_nil_iff]
        exact hall
      rw [this]
      rfl
  constructor
  · unfold extractString
    rw [← hempty]
    cases (v.dropWhile isspace).takeWhile (fun c => !isspace c) <;> simp
  · rintro ⟨c, hc, hcn⟩
    have hne : (v.dropWhile isspace).takeWhile (fun c => !isspace c) ≠ [] := by
      intro he
      have := hempty.1 he c hc
      rw [this] at hcn
      cases hcn
    refine ⟨_, _, _, hsplit, hws, hne, htok, hrest, ?_⟩
    unfold extractString
    cases ht : (v.dropWhile isspace).takeWhile (fun c => !isspace c) with
    | nil => exact absurd ht hne
    | cons x xs => rfl

theorem headerForm_length (t : Str) (h : IsHeaderForm t) : 2 ≤ t.length := by
  obtain ⟨h1, h2⟩ := h
  cases t with
  | nil => cases h1
  | cons x xs =>
    cases xs with
    | nil =>
      simp only [List.head?_cons, Option.some.injEq] at h1
      subst h1
      exact absurd h2 (by decide)
    | cons y ys => simp

/-! ## The claims -/

/-- C1: parsing fails with the syntax error exactly when some line, after the
strip of its trailing spaces and tabs, is non-empty, does not begin with `;`,
is not of header form and has no `=`; the line number reported is then the
1-based index of the first such line, so `[A]`, `badline` fails with 2. -/
theorem C1_syntax_error_first_offending_line (ls : List Str) :
    ((∃ e, ini_parser_ctor ls = .error e) ↔ ∃ l ∈ ls, LacksDelimiter l) ∧
    (∀ n, ini_parser_ctor ls = .error (.syntaxError n) ↔
      ∃ pre l post, ls = pre ++ l :: post ∧ (∀ x ∈ pre, ¬ LacksDelimiter x) ∧
        LacksDelimiter l ∧ n = pre.length + 1) ∧
    ini_parser_ctor ["[A]".toList, "badline".toList] = .error (.syntaxError 2) := by
  refine ⟨?_, ?_, by decide⟩
  · simp only [ini_parser_error_iff]
    exact parseLoop_fails_iff ls initialState
  · intro n
    rw [ini_parser_error_iff, parseLoop_error_iff]
    simp [initialState]

/-- C2: a line that, after the strip of its trailing spaces and tabs, is
non-empty, does not begin with `;`, is not of header form, and contains `=`,
stores under the current section exactly one entry: the key is the text before
the first `=` without its trailing spaces and tabs (leading ones kept), the
value is all the text after the first `=` without its leading spaces and tabs,
later `=` included; every other entry and the current section are unchanged.
The line `a = b=c` stores key `a` with value `b=c`. -/
theorem C2_key_value_line_stores_one_entry (st : ParseState) (line : Str)
    (hne : stripTrailing line ≠ []) (hc : (stripTrailing line).head? ≠ some ';')
    (hh : ¬ IsHeaderForm (stripTrailing line)) (heq : '=' ∈ line) :
    (∃ st', parseLine st line = .ok st' ∧
      st'.current_section = st.current_section ∧
      (∀ s k, entry st'.sections_ s k =
        if s = st.current_section ∧
            k = stripTrailing (beforeDelimiter (stripTrailing line)) then
          some (stripLeading (afterDelimiter (stripTrailing line)))
        else entry st.sections_ s k) ∧
      (∀ s, (mapAt st'.sections_ s).isSome = true ↔
        s = st.current_section ∨ (mapAt st.sections_ s).isSome = true)) ∧
    beforeDelimiter (stripTrailing line) = beforeDelimiter line ∧
    ini_parser_ctor ["a = b=c".toList] = .ok [([], [("a".toList, "b=c".toList)])] ∧
    ini_parser_ctor ["  a  = b=c = d  ".toList] =
      .ok [([], [("  a".toList, "b=c = d".toList)])] := by
  have hmem : '=' ∈ stripTrailing line := stripTrailing_mem_of_not_blank line '=' (by decide) heq
  refine ⟨?_, beforeDelimiter_stripTrailing line heq, by decide, by decide⟩
  have hk : classify line = .keyValue (stripTrailing (beforeDelimiter (stripTrailing line)))
      (stripLeading (afterDelimiter (stripTrailing line))) := by
    unfold classify
    have h1 : ¬ (stripTrailing line = [] ∨ (stripTrailing line).head? = some ';') := by
      rintro (h | h)
      · exact hne h
      · exact hc h
    simp only [h1, hh, hmem, if_true, if_false]
  refine ⟨{ st with line_number := st.line_number + 1,
                     sections_ := setEntry st.sections_ st.current_section
                       (stripTrailing (beforeDelimiter (stripTrailing line)))
                       (stripLeading (afterDelimiter (stripTrailing line))) },
    by rw [parseLine_eq, hk]; rfl, rfl, ?_, ?_⟩
  · intro s k
    exact entry_setEntry _ _ _ _ _ _
  · intro s
    exact mapAt_setEntry_isSome _ _ _ _ _

/-- C2 at the line `a = b=c`, in the state before the first line. -/
theorem C2_key_value_line_stores_one_entry_witness :
    (∃ st', parseLine initialState "a = b=c".toList = .ok st' ∧
      st'.current_section = initialState.current_section ∧
      (∀ s k, entry st'.sections_ s k =
        if s = initialState.current_section ∧
            k = stripTrailing (beforeDelimiter (stripTrailing "a = b=c".toList)) then
          some (stripLeading (afterDelimiter (stripTrailing "a = b=c".toList)))
        else entry initialState.sections_ s k) ∧
      (∀ s, (mapAt st'.sections_ s).isSome = true ↔
        s = initialState.current_section ∨ (mapAt initialState.sections_ s).isSome = true)) ∧
    stripTrailing (beforeDelimiter (stripTrailing "a = b=c".toList)) = "a".toList ∧
    stripLeading (afterDelimiter (stripTrailing "a = b=c".toList)) = "b=c".toList :=
  ⟨(C2_key_value_line_stores_one_entry initialState "a = b=c".toList
      (by decide) (by decide) (by decide) (by decide)).1, by decide, by decide⟩

/-- C3, as stated, fails: after parsing `[a.b]`, `k=v`, `[A]`,
`k=hello world`, `e=`, the entry `A.k` holds `hello world` but string-typed
`get_value` returns `hello`; the entry `A.e` holds the empty string but
`get_value` raises the bad-value error; the entry of section `a.b` is stored
but `a.b.k` raises the not-found error. -/
theorem C3_roundtrip_counterexample :
    ini_parser_ctor ["[a.b]".toList, "k=v".toList, "[A]".toList, "k=hello world".toList,
        "e=".toList] =
      .ok [("a.b".toList, [("k".toList, "v".toList)]),
           ("A".toList, [("k".toList, "hello world".toList), ("e".toList, [])])] ∧
    entry [("a.b".toList, [("k".toList, "v".toList)]),
           ("A".toList, [("k".toList, "hello world".toList), ("e".toList, [])])]
        "A".toList "k".toList = some "hello world".toList ∧
    get_value extractString
        [("a.b".toList, [("k".toList, "v".toList)]),
         ("A".toList, [("k".toList, "hello world".toList), ("e".toList, [])])]
        ("A".toList ++ '.' :: "k".toList) = .ok "hello".toList ∧
    entry [("a.b".toList, [("k".toList, "v".toList)]),
           ("A".toList, [("k".toList, "hello world".toList), ("e".toList, [])])]
        "A".toList "e".toList = some [] ∧
    get_value extractString
        [("a.b".toList, [("k".toList, "v".toList)]),
         ("A".toList, [("k".toList, "hello world".toList), ("e".toList, [])])]
        ("A".toList ++ '.' :: "e".toList) = .error .bad_value ∧
    entry [("a.b".toList, [("k".toList, "v".toList)]),
           ("A".toList, [("k".toList, "hello world".toList), ("e".toList, [])])]
        "a.b".toList "k".toList = some "v".toList ∧
    get_value extractString
        [("a.b".toList, [("k".toList, "v".toList)]),
         ("A".toList, [("k".toList, "hello world".toList), ("e".toList, [])])]
        ("a.b".toList ++ '.' :: "k".toList) = .error .not_found := by
  decide

/-- C3, amended: for every line sequence that parses successfully and every
entry (section `s`, key `k`, raw value `v`) of the resulting document such that
`s` contains no `.` and `v` is non-empty and contains no whitespace character,
string-typed `get_value` on `s.k` succeeds and returns exactly `v`. -/
theorem C3_roundtrip_amended (ls : List Str) (d : Document) (s k v : Str)
    (_hp : ini_parser_ctor ls = .ok d) (he : entry d s k = some v)
    (hs : '.' ∉ s) (hv : v ≠ []) (hw : ∀ c ∈ v, isspace c = false) :
    get_value extractString d (s ++ '.' :: k) = .ok v := by
  rw [get_value_section_key extractString d s k hs, he]
  simp [extractString_token v hv hw]

/-- C3 amended, at the lines `[A]`, `k=notanumber`. -/
theorem C3_roundtrip_amended_witness :
    get_value extractString [("A".toList, [("k".toList, "notanumber".toList)])]
      ("A".toList ++ '.' :: "k".toList) = .ok "notanumber".toList :=
  C3_roundtrip_amended ["[A]".toList, "k=notanumber".toList]
    [("A".toList, [("k".toList, "notanumber".toList)])] "A".toList "k".toList
    "notanumber".toList (by decide) (by decide) (by decide) (by decide) (by decide)

/-- C4: last write wins. After a successful parse the raw value the document
holds for section `s`, key `k` is the trimmed value of the last key/value line
with key `k` read while the current section was `s` (and there is no entry
when there is no such line); for `[A]`, `k=1`, `k=2`, string-typed `get_value`
on `A.k` returns `2`. -/
theorem C4_last_write_wins (ls : List Str) (d : Document) (s k : Str)
    (hp : ini_parser_ctor ls = .ok d) :
    entry d s k = lastAssigned (assignments [] ls) s k ∧
    ini_parser_ctor ["[A]".toList, "k=1".toList, "k=2".toList] =
      .ok [("A".toList, [("k".toList, "2".toList)])] ∧
    get_value extractString [("A".toList, [("k".toList, "2".toList)])] "A.k".toList =
      .ok "2".toList := by
  refine ⟨?_, by decide, by decide⟩
  obtain ⟨st, hst, rfl⟩ := (ini_parser_ok_iff ls d).1 hp
  rw [parseLoop_entry ls initialState st s k hst]
  have hc : initialState.current_section = [] := rfl
  rw [hc]
  cases lastAssigned (assignments [] ls) s k with
  | some v => rfl
  | none => rfl

/-- C4 at the lines `[A]`, `k=1`, `[B]`, `k=9`, `[A]`, `k=2`: the entry of `A.k`
is `2`, the value of the last assignment made under `[A]`. -/
theorem C4_last_write_wins_witness :
    entry [("A".toList, [("k".toList, "2".toList)]), ("B".toList, [("k".toList, "9".toList)])]
        "A".toList "k".toList =
      lastAssigned (assignments [] ["[A]".toList, "k=1".toList, "[B]".toList, "k=9".toList,
        "[A]".toList, "k=2".toList]) "A".toList "k".toList ∧
    lastAssigned (assignments [] ["[A]".toList, "k=1".toList, "[B]".toList, "k=9".toList,
        "[A]".toList, "k=2".toList]) "A".toList "k".toList = some "2".toList :=
  ⟨(C4_last_write_wins ["[A]".toList, "k=1".toList, "[B]".toList, "k=9".toList,
      "[A]".toList, "k=2".toList]
      [("A".toList, [("k".toList, "2".toList)]), ("B".toList, [("k".toList, "9".toList)])]
      "A".toList "k".toList (by decide)).1, by decide⟩

/-- C5: for every document, every target type and every path that contains
a `.`, with the section the text before the first `.` and the key the text
after it, `get_value` raises the not-found error exactly when the section is
absent from the document or the key is absent from that section, whatever the
conversion of the target type does; `get_value<int>` on `NoSuchSection.k` and
on `A.NoSuchKey` both raise it. -/
theorem C5_lookup_error_iff_absent {T : Type} (extract : Str → Option T) (d : Document)
    (path : Str) (hdot : '.' ∈ path) :
    (get_value extract d path = .error .not_found ↔
      (mapAt d (path.takeWhile (· != '.')) = none ∨
        ∃ keys, mapAt d (path.takeWhile (· != '.')) = some keys ∧
          mapAt keys ((path.dropWhile (· != '.')).drop 1) = none)) ∧
    get_value extractInt [("A".toList, [("k".toList, "1".toList)])]
      "NoSuchSection.k".toList = .error .not_found ∧
    get_value extractInt [("A".toList, [("k".toList, "1".toList)])]
      "A.NoSuchKey".toList = .error .not_found := by
  refine ⟨?_, by decide, by decide⟩
  rw [get_value_of_mem extract d path hdot, ← entry_eq_none_iff]
  cases entry d (path.takeWhile (· != '.')) ((path.dropWhile (· != '.')).drop 1) with
  | none => simp
  | some raw => cases hx : extract raw <;> simp [hx]

/-- C5 at the path `A.NoSuchKey` with a conversion that accepts everything:
the key is absent from section `A`, and the not-found error is raised. -/
theorem C5_lookup_error_iff_absent_witness :
    get_value (fun raw => some raw) [("A".toList, [("k".toList, "1".toList)])]
        "A.NoSuchKey".toList = .error .not_found ↔
      (mapAt [("A".toList, [("k".toList, "1".toList)])]
          ("A.NoSuchKey".toList.takeWhile (· != '.')) = none ∨
        ∃ keys, mapAt [("A".toList, [("k".toList, "1".toList)])]
            ("A.NoSuchKey".toList.takeWhile (· != '.')) = some keys ∧
          mapAt keys (("A.NoSuchKey".toList.dropWhile (· != '.')).drop 1) = none) :=
  (C5_lookup_error_iff_absent (fun raw => some raw) [("A".toList, [("k".toList, "1".toList)])]
    "A.NoSuchKey".toList (by decide)).1

/-- C6: for every document, the empty one included, every target type and
every path without a `.`, `get_value` raises the path-format error
(`std::invalid_argument`), which is neither the not-found nor the bad-value
error, and so returns no value; `get_value<int>` on `justkey` does so. -/
theorem C6_path_without_dot_is_format_error {T : Type} (extract : Str → Option T)
    (d : Document) (path : Str) (hdot : '.' ∉ path) :
    get_value extract d path = .error .invalid_argument ∧
    (∀ r, get_value extract d path ≠ .ok r) ∧
    GetError.invalid_argument ≠ GetError.not_found ∧
    GetError.invalid_argument ≠ GetError.bad_value ∧
    get_value extractInt [] "justkey".toList = .error .invalid_argument := by
  have h : get_value extract d path = .error .invalid_argument := by
    rw [get_value_eq, (find_eq_none path '.').2 hdot]
  refine ⟨h, ?_, by decide, by decide, by decide⟩
  intro r hr
  rw [h] at hr
  cases hr

/-- C6 at the path `justkey`, on a document that has a section and a key of
that very name. -/
theorem C6_path_without_dot_is_format_error_witness :
    get_value extractString [("justkey".toList, [("justkey".toList, "v".toList)])]
      "justkey".toList = .error .invalid_argument :=
  (C6_path_without_dot_is_format_error extractString
    [("justkey".toList, [("justkey".toList, "v".toList)])] "justkey".toList (by decide)).1

/-- C7: the header `[]` aliases the default section. For every line sequence
`ls`, parsing `[]` followed by `ls` succeeds exactly when parsing `ls` does,
with the same document, and fails with the line number larger by one;
string-typed `get_value` on `.k` gives the same result for `[]`, `k=v` and for
`k=v`. -/
theorem C7_empty_header_aliases_default_section (ls : List Str) :
    ini_parser_ctor ("[]".toList :: ls) =
      (match ini_parser_ctor ls with
       | .ok d => .ok d
       | .error (.syntaxError n) => .error (.syntaxError (n + 1))) ∧
    ini_parser_ctor ["[]".toList, "k=v".toList] = .ok [([], [("k".toList, "v".toList)])] ∧
    ini_parser_ctor ["k=v".toList] = .ok [([], [("k".toList, "v".toList)])] ∧
    get_value extractString [([], [("k".toList, "v".toList)])] ".k".toList =
      .ok "v".toList := by
  refine ⟨?_, by decide, by decide, by decide⟩
  have h1 : parseLine initialState "[]".toList =
      .ok { initialState with line_number := initialState.line_number + 1 } := by decide
  unfold ini_parser_ctor
  simp only [parseLoop, h1, parseLoop_renumber]
  cases parseLoop initialState ls with
  | error e =>
    cases e
    rfl
  | ok st => rfl

/-- C8: comment and blank lines never produce entries. For all line sequences
`ls1`, `ls2` and every line `c` that is empty or begins with `;`, parsing
`ls1 ++ [c] ++ ls2` yields a document exactly when parsing `ls1 ++ ls2` does,
and the same one; `; comment`, an empty line, `[A]`, `k=v` yields the document
whose only key is `A.k`. -/
theorem C8_comment_and_blank_lines_are_inert (ls1 ls2 : List Str) (c : Str)
    (hc : c = [] ∨ c.head? = some ';') :
    (∀ d, ini_parser_ctor (ls1 ++ [c] ++ ls2) = .ok d ↔ ini_parser_ctor (ls1 ++ ls2) = .ok d) ∧
    ((∃ e, ini_parser_ctor (ls1 ++ [c] ++ ls2) = .error e) ↔
      ∃ e, ini_parser_ctor (ls1 ++ ls2) = .error e) ∧
    ini_parser_ctor ["; comment".toList, [], "[A]".toList, "k=v".toList] =
      .ok [("A".toList, [("k".toList, "v".toList)])] := by
  have hall : ∀ d, ini_parser_ctor (ls1 ++ [c] ++ ls2) = .ok d ↔
      ini_parser_ctor (ls1 ++ ls2) = .ok d := by
    intro d
    simp only [ini_parser_ok_iff, List.append_assoc, List.singleton_append, parseLoop_append]
    cases parseLoop initialState ls1 with
    | error e => simp
    | ok st1 =>
      simp only [parseLoop, parseLine_eq, classify_skipped c hc, applyKind, parseLoop_renumber]
      exact renumber_ok_sections 1 _ d
  refine ⟨hall, ?_, by decide⟩
  have hsplit : ∀ r : Except ParseError Document, (∃ e, r = .error e) ↔ ¬ ∃ d, r = .ok d := by
    intro r
    cases r <;> simp
  rw [hsplit, hsplit]
  exact not_congr (exists_congr hall)

/-- C8 at the comment line `; comment` between `[A]` and `k=v`. -/
theorem C8_comment_and_blank_lines_are_inert_witness :
    ini_parser_ctor (["[A]".toList] ++ ["; comment".toList] ++ ["k=v".toList]) =
        .ok [("A".toList, [("k".toList, "v".toList)])] ↔
      ini_parser_ctor (["[A]".toList] ++ ["k=v".toList]) =
        .ok [("A".toList, [("k".toList, "v".toList)])] :=
  (C8_comment_and_blank_lines_are_inert ["[A]".toList] ["k=v".toList] "; comment".toList
    (by decide)).1 [("A".toList, [("k".toList, "v".toList)])]

/-- C9: a path splits on its first `.` only. For every document, every
section name `s` without a `.` and every key `k`, which may contain `.`,
`get_value` on `s.k` looks up key `k` in section `s`: not found when there is
no such entry, otherwise the conversion of the entry's raw value; after
parsing `[A]`, `a.b=7`, `get_value<int>` on `A.a.b` returns 7. -/
theorem C9_path_splits_on_first_dot {T : Type} (extract : Str → Option T) (d : Document)
    (s k : Str) (hs : '.' ∉ s) :
    get_value extract d (s ++ '.' :: k) =
      (match entry d s k with
       | none => .error .not_found
       | some raw =>
         match extract raw with
         | none => .error .bad_value
         | some result => .ok result) ∧
    ini_parser_ctor ["[A]".toList, "a.b=7".toList] =
      .ok [("A".toList, [("a.b".toList, "7".toList)])] ∧
    get_value extractInt [("A".toList, [("a.b".toList, "7".toList)])] "A.a.b".toList =
      .ok 7 :=
  ⟨get_value_section_key extract d s k hs, by decide, by decide⟩

/-- C9 at section `A` and key `a.b.c`, in a document that also has a section
`A.a` with a key `b.c`: the entry of section `A` is the one returned. -/
theorem C9_path_splits_on_first_dot_witness :
    get_value extractInt
        [("A.a".toList, [("b.c".toList, "1".toList)]),
         ("A".toList, [("a.b.c".toList, "2".toList)])]
        ("A".toList ++ '.' :: "a.b.c".toList) =
      (match entry [("A.a".toList, [("b.c".toList, "1".toList)]),
                    ("A".toList, [("a.b.c".toList, "2".toList)])] "A".toList "a.b.c".toList with
       | none => .error .not_found
       | some raw =>
         match extractInt raw with
         | none => .error .bad_value
         | some result => .ok result) ∧
    get_value extractInt
        [("A.a".toList, [("b.c".toList, "1".toList)]),
         ("A".toList, [("a.b.c".toList, "2".toList)])]
        ("A".toList ++ '.' :: "a.b.c".toList) = .ok 2 :=
  ⟨(C9_path_splits_on_first_dot extractInt
      [("A.a".toList, [("b.c".toList, "1".toList)]),
       ("A".toList, [("a.b.c".toList, "2".toList)])] "A".toList "a.b.c".toList
      (by decide)).1, by decide⟩

/-- C10: type mismatch. For every document and path whose section and key
hold a non-empty raw value `v` that contains no whitespace character and does
not begin with a decimal integer (an optional sign followed by at least one
digit), `get_value<int>` raises the bad-value error while
`get_value<string>` on the same path returns `v`; for `[A]`, `k=notanumber`
the former fails on `A.k` and the latter returns `notanumber`. -/
theorem C10_type_mismatch (d : Document) (path v : Str) (hdot : '.' ∈ path)
    (he : entry d (path.takeWhile (· != '.')) ((path.dropWhile (· != '.')).drop 1) = some v)
    (hv : v ≠ []) (hw : ∀ c ∈ v, isspace c = false) (hi : beginsWithInteger v = false) :
    get_value extractInt d path = .error .bad_value ∧
    get_value extractString d path = .ok v ∧
    ini_parser_ctor ["[A]".toList, "k=notanumber".toList] =
      .ok [("A".toList, [("k".toList, "notanumber".toList)])] ∧
    get_value extractInt [("A".toList, [("k".toList, "notanumber".toList)])] "A.k".toList =
      .error .bad_value ∧
    get_value extractString [("A".toList, [("k".toList, "notanumber".toList)])] "A.k".toList =
      .ok "notanumber".toList := by
  refine ⟨?_, ?_, by decide, by decide, by decide⟩
  · rw [get_value_of_mem extractInt d path hdot, he]
    simp [extractInt_no_integer v hw hi]
  · rw [get_value_of_mem extractString d path hdot, he]
    simp [extractString_token v hv hw]

/-- C10 at the raw value `-x1`, a sign that no digit follows. -/
theorem C10_type_mismatch_witness :
    get_value extractInt [("A".toList, [("k".toList, "-x1".toList)])] "A.k".toList =
      .error .bad_value ∧
    get_value extractString [("A".toList, [("k".toList, "-x1".toList)])] "A.k".toList =
      .ok "-x1".toList :=
  ⟨(C10_type_mismatch [("A".toList, [("k".toList, "-x1".toList)])] "A.k".toList "-x1".toList
      (by decide) (by decide) (by decide) (by decide) (by decide)).1,
   (C10_type_mismatch [("A".toList, [("k".toList, "-x1".toList)])] "A.k".toList "-x1".toList
      (by decide) (by decide) (by decide) (by decide) (by decide)).2.1⟩

/-- C11, as stated, fails: after parsing `[A]`, `k=12abc` the entry `A.k`
holds `12abc`, and `get_value<int>` on `A.k` returns 12 instead of raising the
bad-value error. -/
theorem C11_trailing_garbage_counterexample :
    ini_parser_ctor ["[A]".toList, "k=12abc".toList] =
      .ok [("A".toList, [("k".toList, "12abc".toList)])] ∧
    entry [("A".toList, [("k".toList, "12abc".toList)])] "A".toList "k".toList =
      some "12abc".toList ∧
    get_value extractInt [("A".toList, [("k".toList, "12abc".toList)])] "A.k".toList =
      .ok 12 := by
  decide

/-- C11, amended: for every document and path whose section and key hold a
raw value that is a decimal integer within the range of the 32-bit `int` (an
optional sign and at least one digit) followed by at least one further
character, the first of which is not a digit, `get_value<int>` succeeds and
returns that integer; the characters after it are ignored. -/
theorem C11_trailing_garbage_amended (d : Document) (path sign ds r : Str) (c : Char)
    (hdot : '.' ∈ path)
    (he : entry d (path.takeWhile (· != '.')) ((path.dropWhile (· != '.')).drop 1) =
      some (sign ++ ds ++ c :: r))
    (hsign : sign = [] ∨ sign = ['+'] ∨ sign = ['-'])
    (hne : ds ≠ []) (hds : ∀ x ∈ ds, isdigit x = true) (hc : isdigit c = false)
    (hlo : -2147483648 ≤ signedValue sign ds) (hhi : signedValue sign ds ≤ 2147483647) :
    get_value extractInt d path = .ok (signedValue sign ds) := by
  have hx : extractInt (sign ++ ds ++ c :: r) = some (signedValue sign ds) := by
    rw [extractInt_sign_digits sign ds (c :: r) hsign hne hds (by simp [hc])]
    have : ¬ (signedValue sign ds < -2147483648 ∨ 2147483647 < signedValue sign ds) := by
      omega
    rw [if_neg this]
  rw [get_value_of_mem extractInt d path hdot, he]
  simp only [hx]

/-- C11 amended, at the raw value `-12abc`: the result is -12. -/
theorem C11_trailing_garbage_amended_witness :
    get_value extractInt [("A".toList, [("k".toList, "-12abc".toList)])] "A.k".toList =
      .ok (signedValue ['-'] "12".toList) ∧
    signedValue ['-'] "12".toList = -12 :=
  ⟨C11_trailing_garbage_amended [("A".toList, [("k".toList, "-12abc".toList)])] "A.k".toList
      ['-'] "12".toList "bc".toList 'a' (by decide) (by decide) (by decide) (by decide)
      (by decide) (by decide) (by decide) (by decide), by decide⟩

/-- C12: overflow is a conversion failure. For every document and path whose
section and key hold a decimal integer literal (an optional sign and at least
one digit) whose value lies below -2^31 or above 2^31-1, `get_value<int>`
raises the bad-value error and returns no value; `99999999999` is such a
literal, and so are the two nearest to the range, while the bounds themselves
are returned. -/
theorem C12_overflow_is_conversion_failure (d : Document) (path sign ds : Str)
    (hdot : '.' ∈ path)
    (he : entry d (path.takeWhile (· != '.')) ((path.dropWhile (· != '.')).drop 1) =
      some (sign ++ ds))
    (hsign : sign = [] ∨ sign = ['+'] ∨ sign = ['-'])
    (hne : ds ≠ []) (hds : ∀ x ∈ ds, isdigit x = true)
    (hrange : signedValue sign ds < -2147483648 ∨ 2147483647 < signedValue sign ds) :
    get_value extractInt d path = .error .bad_value ∧
    (∀ r, get_value extractInt d path ≠ .ok r) ∧
    get_value extractInt [("A".toList, [("k".toList, "99999999999".toList)])] "A.k".toList =
      .error .bad_value ∧
    get_value extractInt [("A".toList, [("k".toList, "2147483648".toList)])] "A.k".toList =
      .error .bad_value ∧
    get_value extractInt [("A".toList, [("k".toList, "-2147483649".toList)])] "A.k".toList =
      .error .bad_value ∧
    get_value extractInt [("A".toList, [("k".toList, "2147483647".toList)])] "A.k".toList =
      .ok 2147483647 ∧
    get_value extractInt [("A".toList, [("k".toList, "-2147483648".toList)])] "A.k".toList =
      .ok (-2147483648) := by
  have hx : extractInt (sign ++ ds) = none := by
    have h := extractInt_sign_digits sign ds [] hsign hne hds (by simp)
    rw [List.append_nil] at h
    rw [h, if_pos hrange]
  have hg : get_value extractInt d path = .error .bad_value := by
    rw [get_value_of_mem extractInt d path hdot, he]
    simp only [hx]
  refine ⟨hg, ?_, by decide, by decide, by decide, by decide, by decide⟩
  intro r hr
  rw [hg] at hr
  cases hr

/-- C12 at the raw value `99999999999`. -/
theorem C12_overflow_is_conversion_failure_witness :
    signedValue [] "99999999999".toList = 99999999999 ∧
    get_value extractInt [("A".toList, [("k".toList, "99999999999".toList)])] "A.k".toList =
      .error .bad_value :=
  ⟨by decide,
   (C12_overflow_is_conversion_failure [("A".toList, [("k".toList, "99999999999".toList)])]
      "A.k".toList [] "99999999999".toList (by decide) (by decide) (by decide) (by decide)
      (by decide) (by decide)).1⟩

/-- C13: the raw-value invariant. For every line sequence that parses
successfully, every value stored in the resulting document neither begins nor
ends with a space or a tab; the line `k = <tab> v w <tab> ` stores `v w`. -/
theorem C13_raw_value_has_no_blank_ends (ls : List Str) (d : Document) (s k v : Str)
    (hp : ini_parser_ctor ls = .ok d) (he : entry d s k = some v) :
    NoBlankEnds v ∧
    ini_parser_ctor ["k = \t v w \t ".toList] = .ok [([], [("k".toList, "v w".toList)])] := by
  refine ⟨?_, by decide⟩
  obtain ⟨st, hst, rfl⟩ := (ini_parser_ok_iff ls d).1 hp
  rw [parseLoop_entry ls initialState st s k hst] at he
  cases hl : lastAssigned (assignments initialState.current_section ls) s k with
  | none =>
    rw [hl] at he
    cases he
  | some w =>
    rw [hl] at he
    injection he with he
    subst he
    obtain ⟨a, ha, -, -, rfl⟩ := lastAssigned_mem _ s k _ hl
    obtain ⟨mid, kv, post, -, hkv, -⟩ := assignments_origin ls _ a ha
    exact value_noBlankEnds kv a.key a.value hkv

/-- C13 at the lines `[A]`, `k = <tab> v w <tab> `: the stored value `v w`
has no blank at either end. -/
theorem C13_raw_value_has_no_blank_ends_witness :
    NoBlankEnds "v w".toList :=
  (C13_raw_value_has_no_blank_ends ["[A]".toList, "k = \t v w \t ".toList]
    [("A".toList, [("k".toList, "v w".toList)])] "A".toList "k".toList "v w".toList
    (by decide) (by decide)).1

/-- C14: the section-name invariant. For every line sequence that parses
successfully, every section name present in the resulting document is the
empty string, or is, character for character, the text strictly between the
first and the last character of an input line that after its trailing strip
begins with `[` and ends with `]`; that line precedes a key/value line, with no
other header line between the two. The lines `[ A b ]  `, `k=v` give the
section name ` A b `. -/
theorem C14_section_names_come_from_headers (ls : List Str) (d : Document) (s : Str)
    (hp : ini_parser_ctor ls = .ok d) (hs : (mapAt d s).isSome = true) :
    (s = [] ∨
      ∃ pre l mid kv post k v, ls = pre ++ l :: mid ++ kv :: post ∧
        IsHeaderForm (stripTrailing l) ∧ s = innerText (stripTrailing l) ∧
        (∀ x ∈ mid, ¬ IsHeaderForm (stripTrailing x)) ∧
        classify kv = .keyValue k v) ∧
    ini_parser_ctor ["[ A b ]  ".toList, "k=v".toList] =
      .ok [(" A b ".toList, [("k".toList, "v".toList)])] := by
  refine ⟨?_, by decide⟩
  obtain ⟨st, hst, rfl⟩ := (ini_parser_ok_iff ls d).1 hp
  rw [parseLoop_sections ls initialState st s hst] at hs
  rcases hs with hs | ⟨a, ha, rfl⟩
  · simp [initialState, mapAt] at hs
  · obtain ⟨mid, kv, post, hls, hkv, hor⟩ := assignments_origin ls _ a ha
    rcases hor with ⟨hsec, -⟩ | ⟨pre, l, mid', hm, hl, hmid'⟩
    · left
      exact hsec
    · right
      obtain ⟨hh, hn⟩ := (classify_header_iff l a.section_).1 hl
      exact ⟨pre, l, mid', kv, post, a.key, a.value, by rw [hls, hm], hh, hn, hmid', hkv⟩

/-- C14 at the lines `k0=v0`, `[A]`, an empty line, `k=v`: the section `A` is
the inner text of the second line. -/
theorem C14_section_names_come_from_headers_witness :
    "A".toList = [] ∨
      ∃ pre l mid kv post k v,
        ["k0=v0".toList, "[A]".toList, [], "k=v".toList] = pre ++ l :: mid ++ kv :: post ∧
        IsHeaderForm (stripTrailing l) ∧ "A".toList = innerText (stripTrailing l) ∧
        (∀ x ∈ mid, ¬ IsHeaderForm (stripTrailing x)) ∧
        classify kv = .keyValue k v :=
  (C14_section_names_come_from_headers ["k0=v0".toList, "[A]".toList, [], "k=v".toList]
    [([], [("k0".toList, "v0".toList)]), ("A".toList, [("k".toList, "v".toList)])]
    "A".toList (by decide) (by decide)).1

/-- C15, as stated, fails: there is no line of spaces and tabs only that the
step-1 strip (`find_last_not_of` gives `npos`, and `npos + 1` is 0) leaves
non-empty; the lines ` <tab> <tab>`, `<tab>` and a single space are all
skipped, and parsing them between `[A]` and `k=v` succeeds. -/
theorem C15_whitespace_only_line_counterexample :
    (¬ ∃ line : Str, (∀ c ∈ line, c = ' ' ∨ c = '\t') ∧
      eraseFrom line (nposSucc (find_last_not_of line blanks)) ≠ []) ∧
    eraseFrom " \t \t".toList (nposSucc (find_last_not_of " \t \t".toList blanks)) = [] ∧
    ini_parser_ctor ["[A]".toList, " \t \t".toList, "\t".toList, " ".toList, "k=v".toList] =
      .ok [("A".toList, [("k".toList, "v".toList)])] := by
  refine ⟨?_, by decide, by decide⟩
  rintro ⟨line, hall, hne⟩
  apply hne
  rw [eraseFrom_find_last_not_of]
  apply stripTrailing_of_blank
  intro c hc
  rcases hall c hc with rfl | rfl <;> decide

/-- C15, amended: whitespace-only lines are blank. For every line that
consists only of space and tab characters, the step-1 strip leaves the line
empty, so the line is skipped: no error is raised, no entry is stored and the
current section is unchanged; only the line counter advances. -/
theorem C15_whitespace_only_line_amended (st : ParseState) (line : Str)
    (hall : ∀ c ∈ line, c = ' ' ∨ c = '\t') :
    eraseFrom line (nposSucc (find_last_not_of line blanks)) = [] ∧
    parseLine st line = .ok { st with line_number := st.line_number + 1 } := by
  have hb : stripTrailing line = [] := by
    apply stripTrailing_of_blank
    intro c hc
    rcases hall c hc with rfl | rfl <;> decide
  refine ⟨by rw [eraseFrom_find_last_not_of, hb], ?_⟩
  rw [parseLine_eq]
  unfold classify
  simp [hb, applyKind]

/-- C15 amended, at the line ` <tab> ` read as the third line under `[A]`. -/
theorem C15_whitespace_only_line_amended_witness :
    eraseFrom " \t ".toList (nposSucc (find_last_not_of " \t ".toList blanks)) = [] ∧
    parseLine { current_section := "A".toList, line_number := 2, sections_ := [] }
        " \t ".toList =
      .ok { current_section := "A".toList, line_number := 3, sections_ := [] } :=
  C15_whitespace_only_line_amended
    { current_section := "A".toList, line_number := 2, sections_ := [] } " \t ".toList
    (by decide)

/-- C16: leading whitespace defeats comment detection. A line made of one or
more spaces or tabs, then `;`, then any text is not skipped: without `=` it
raises the syntax error with that line's 1-based number, and with `=` it
stores, under the current section, an entry whose key begins with the leading
whitespace and the `;`. The line `  ; note` fails with line number 2 after
`[A]`, and ` ;x = 1` stores the key ` ;x`. -/
theorem C16_leading_whitespace_defeats_comment (st : ParseState) (ws rest : Str)
    (hne : ws ≠ []) (hws : ∀ c ∈ ws, isBlank c = true) :
    ('=' ∉ rest →
      parseLine st (ws ++ ';' :: rest) = .error (.syntaxError (st.line_number + 1))) ∧
    ('=' ∉ rest → ∀ pre post, (∀ x ∈ pre, ¬ LacksDelimiter x) →
      ini_parser_ctor (pre ++ (ws ++ ';' :: rest) :: post) =
        .error (.syntaxError (pre.length + 1))) ∧
    ('=' ∈ rest → ∃ k v st',
      parseLine st (ws ++ ';' :: rest) = .ok st' ∧
      st'.sections_ = setEntry st.sections_ st.current_section (ws ++ ';' :: k) v ∧
      entry st'.sections_ st.current_section (ws ++ ';' :: k) = some v) ∧
    ini_parser_ctor ["[A]".toList, "  ; note".toList] = .error (.syntaxError 2) ∧
    ini_parser_ctor ["[A]".toList, " ;x = 1".toList] =
      .ok [("A".toList, [(" ;x".toList, "1".toList)])] := by
  have hcl := classify_blank_then_semicolon ws rest hne hws
  refine ⟨?_, ?_, ?_, by decide, by decide⟩
  · intro hm
    rw [parseLine_eq, hcl, if_neg hm]
    rfl
  · intro hm pre post hpre
    rw [ini_parser_error_iff, parseLoop_error_iff]
    refine ⟨pre, ws ++ ';' :: rest, post, rfl, hpre, ?_, by simp [initialState]⟩
    rw [← classify_malformed_iff, hcl, if_neg hm]
  · intro hm
    refine ⟨stripTrailing (beforeDelimiter (stripTrailing rest)),
      stripLeading (afterDelimiter (ws ++ ';' :: stripTrailing rest)),
      { st with line_number := st.line_number + 1,
                sections_ := setEntry st.sections_ st.current_section
                  (ws ++ ';' :: stripTrailing (beforeDelimiter (stripTrailing rest)))
                  (stripLeading (afterDelimiter (ws ++ ';' :: stripTrailing rest))) },
      ?_, rfl, ?_⟩
    · rw [parseLine_eq, hcl, if_pos hm]
      rfl
    · simp [entry_setEntry]

/-- C16 at the line `<tab> ;x = 1` read first: the key stored begins with the
tab, the space and the `;`. -/
theorem C16_leading_whitespace_defeats_comment_witness :
    ∃ k v st',
      parseLine initialState ("\t ".toList ++ ';' :: "x = 1".toList) = .ok st' ∧
      st'.sections_ = setEntry initialState.sections_ initialState.current_section
        ("\t ".toList ++ ';' :: k) v ∧
      entry st'.sections_ initialState.current_section ("\t ".toList ++ ';' :: k) = some v :=
  (C16_leading_whitespace_defeats_comment initialState "\t ".toList "x = 1".toList
    (by decide) (by decide)).2.2.1 (by decide)

/-- C17 on the code: a header line alone creates no section. Parsing the
single line `[A]` leaves `sections_` empty, and after `[A]`, `[B]`, `k=v` the
document has the section `B` only; a section appears with its first key/value
line (`sections_[current_section][key] = value`, line 69). -/
theorem C17_header_alone_creates_no_section :
    ini_parser_ctor ["[A]".toList] = .ok [] ∧
    mapCount ([] : Document) "A".toList = 0 ∧
    ini_parser_ctor ["[A]".toList, "[B]".toList, "k=v".toList] =
      .ok [("B".toList, [("k".toList, "v".toList)])] ∧
    mapCount ([("B".toList, [("k".toList, "v".toList)])] : Document) "A".toList = 0 ∧
    mapCount ([("B".toList, [("k".toList, "v".toList)])] : Document) "B".toList = 1 := by
  refine ⟨by decide, by decide, by decide, by decide, by decide⟩

/-- C18: sections whose name contains `.` are unreachable through
`get_value`. Whenever `get_value` succeeds, for any target type, the path is
`s.k` for a section name `s` without `.`, and the value converted is the entry
of `s` and `k`; so after parsing `[a.b]`, `k=v` no path makes string-typed
`get_value` return `v`, and `a.b.k` raises the not-found error. -/
theorem C18_dotted_sections_unreachable {T : Type} (extract : Str → Option T)
    (d : Document) (path : Str) (r : T) (h : get_value extract d path = .ok r) :
    (∃ s k raw, path = s ++ '.' :: k ∧ '.' ∉ s ∧ entry d s k = some raw ∧
      extract raw = some r) ∧
    ini_parser_ctor ["[a.b]".toList, "k=v".toList] =
      .ok [("a.b".toList, [("k".toList, "v".toList)])] ∧
    (∀ p, get_value extractString [("a.b".toList, [("k".toList, "v".toList)])] p ≠
      .ok "v".toList) ∧
    get_value extractString [("a.b".toList, [("k".toList, "v".toList)])] "a.b.k".toList =
      .error .not_found := by
  refine ⟨get_value_ok_section extract d path r h, by decide, ?_, by decide⟩
  intro p hp
  obtain ⟨s, k, raw, -, hs, he, -⟩ := get_value_ok_section _ _ p _ hp
  have hsec : s = "a.b".toList := by
    by_contra hne
    have hne' : ¬ "a.b".toList = s := fun e => hne e.symm
    simp only [entry, mapAt] at he
    rw [if_neg hne'] at he
    simp at he
  rw [hsec] at hs
  exact hs (by decide)

/-- C18 at the path `a.b.k` on a document that has both a section `a` with
the key `b.k` and a section `a.b` with the key `k`: the value returned is the
one of section `a`. -/
theorem C18_dotted_sections_unreachable_witness :
    ∃ s k raw, "a.b.k".toList = s ++ '.' :: k ∧ '.' ∉ s ∧
      entry [("a.b".toList, [("k".toList, "dotted".toList)]),
             ("a".toList, [("b.k".toList, "plain".toList)])] s k = some raw ∧
      extractString raw = some "plain".toList :=
  (C18_dotted_sections_unreachable extractString
    [("a.b".toList, [("k".toList, "dotted".toList)]),
     ("a".toList, [("b.k".toList, "plain".toList)])] "a.b.k".toList "plain".toList
    (by decide)).1

/-- C19: string-typed `get_value` is token extraction. For every document and
path whose section and key hold the raw value `v`: the bad-value error is
raised exactly when `v` has no non-whitespace character (the empty value
stored for `key=` included); otherwise `v` is a run of whitespace, then a
non-empty run `tok` without whitespace, then a rest that is empty or begins
with whitespace, and `tok` is returned. The value `hello world` yields
`hello`. -/
theorem C19_string_get_is_token_extraction (d : Document) (path v : Str)
    (hdot : '.' ∈ path)
    (he : entry d (path.takeWhile (· != '.')) ((path.dropWhile (· != '.')).drop 1) = some v) :
    (get_value extractString d path = .error .bad_value ↔ ∀ c ∈ v, isspace c = true) ∧
    ((∃ c ∈ v, isspace c = false) →
      ∃ ws tok rest, v = ws ++ tok ++ rest ∧ (∀ c ∈ ws, isspace c = true) ∧ tok ≠ [] ∧
        (∀ c ∈ tok, isspace c = false) ∧ rest.head?.all isspace = true ∧
        get_value extractString d path = .ok tok) ∧
    get_value extractString [("A".toList, [("k".toList, "hello world".toList)])]
      "A.k".toList = .ok "hello".toList ∧
    ini_parser_ctor ["key=".toList] = .ok [([], [("key".toList, [])])] ∧
    get_value extractString [([], [("key".toList, [])])] ".key".toList =
      .error .bad_value := by
  have hg : get_value extractString d path =
      match extractString v with
      | none => .error .bad_value
      | some result => .ok result := by
    simp only [get_value_of_mem extractString d path hdot, he]
    cases extractString v <;> rfl
  obtain ⟨h1, h2⟩ := extractString_spec v
  refine ⟨?_, ?_, by decide, by decide, by decide⟩
  · rw [hg, ← h1]
    cases hx : extractString v with
    | none => simp
    | some tok => simp
  · intro hex
    obtain ⟨ws, tok, rest, hv, hws, hne, htok, hrest, hx⟩ := h2 hex
    refine ⟨ws, tok, rest, hv, hws, hne, htok, hrest, ?_⟩
    rw [hg]
    simp only [hx]

/-- C19 at the raw value `hello world` of `A.k`. -/
theorem C19_string_get_is_token_extraction_witness :
    ∃ ws tok rest, "hello world".toList = ws ++ tok ++ rest ∧
      (∀ c ∈ ws, isspace c = true) ∧ tok ≠ [] ∧
      (∀ c ∈ tok, isspace c = false) ∧ rest.head?.all isspace = true ∧
      get_value extractString [("A".toList, [("k".toList, "hello world".toList)])]
        "A.k".toList = .ok tok :=
  (C19_string_get_is_token_extraction [("A".toList, [("k".toList, "hello world".toList)])]
    "A.k".toList "hello world".toList (by decide) (by decide)).2.1 ⟨'h', by decide, by decide⟩

/-- C20: header classification takes precedence. A line that after its
trailing strip begins with `[` and ends with `]` has at least two characters,
and the loop iteration only sets the current section to the text strictly
between them: no entry is stored and no error raised, also when the line
contains `=` (`[a=b]` sets the current section to `a=b`). A line that begins
with `[` but does not end with `]` after the strip is never a header: it
raises the syntax error (`[` alone) or stores an entry under the unchanged
current section (`[a]=b`). -/
theorem C20_header_takes_precedence (st : ParseState) (line : Str) :
    (IsHeaderForm (stripTrailing line) →
      2 ≤ (stripTrailing line).length ∧
      substr (stripTrailing line) 1 ((stripTrailing line).length - 2) =
        innerText (stripTrailing line) ∧
      parseLine st line =
        .ok { st with line_number := st.line_number + 1,
                      current_section := innerText (stripTrailing line) }) ∧
    ((stripTrailing line).head? = some '[' → (stripTrailing line).getLast? ≠ some ']' →
      parseLine st line = .error (.syntaxError (st.line_number + 1)) ∨
      ∃ k v, parseLine st line =
        .ok { st with line_number := st.line_number + 1,
                      sections_ := setEntry st.sections_ st.current_section k v }) ∧
    parseLine initialState "[a=b]".toList =
      .ok { current_section := "a=b".toList, line_number := 1, sections_ := [] } ∧
    ini_parser_ctor ["[".toList] = .error (.syntaxError 1) ∧
    ini_parser_ctor ["[a]=b".toList] = .ok [([], [("[a]".toList, "b".toList)])] := by
  refine ⟨?_, ?_, by decide, by decide, by decide⟩
  · intro hh
    refine ⟨headerForm_length _ hh, substr_header _, ?_⟩
    rw [parseLine_eq, (classify_header_iff line _).2 ⟨hh, rfl⟩]
    rfl
  · intro h1 h2
    have hnh : ¬ IsHeaderForm (stripTrailing line) := fun hh => h2 hh.2
    rw [parseLine_eq]
    cases hk : classify line with
    | skipped =>
      exfalso
      unfold classify at hk
      have hskip : ¬ (stripTrailing line = [] ∨ (stripTrailing line).head? = some ';') := by
        rintro (h | h)
        · rw [h] at h1
          cases h1
        · rw [h] at h1
          exact absurd h1 (by decide)
      simp only [hskip, hnh, if_false] at hk
      by_cases hm : '=' ∈ stripTrailing line
      · simp [hm] at hk
      · simp [hm] at hk
    | header n => exact absurd ((classify_header_iff line n).1 hk).1 hnh
    | keyValue k v => exact Or.inr ⟨k, v, rfl⟩
    | malformed => exact Or.inl rfl

/-- C20 at the lines `[a=b]  ` (a header, trailing blanks stripped) and
`[a]=b` (not a header), read in the state before the first line. -/
theorem C20_header_takes_precedence_witness :
    (2 ≤ (stripTrailing "[a=b]  ".toList).length ∧
      substr (stripTrailing "[a=b]  ".toList) 1 ((stripTrailing "[a=b]  ".toList).length - 2) =
        innerText (stripTrailing "[a=b]  ".toList) ∧
      parseLine initialState "[a=b]  ".toList =
        .ok { initialState with line_number := initialState.line_number + 1,
                                current_section := innerText (stripTrailing "[a=b]  ".toList) }) ∧
    (parseLine initialState "[a]=b".toList =
        .error (.syntaxError (initialState.line_number + 1)) ∨
      ∃ k v, parseLine initialState "[a]=b".toList =
        .ok { initialState with line_number := initialState.line_number + 1,
                                sections_ := setEntry initialState.sections_
                                  initialState.current_section k v }) :=
  ⟨(C20_header_takes_precedence initialState "[a=b]  ".toList).1 (by decide),
   (C20_header_takes_precedence initialState "[a]=b".toList).2.1 (by decide) (by decide)⟩

end IniParser
